import Mathlib

/-!
# Lazy AVL tree: reference oracle and tree verifier

A shallow embedding of `src/main.cpp`:

* `StdMap` models the part of `std::map<K, V>` that `Ref` uses, as the list of
  entries in iteration order;
* `Ref` is the reference oracle (`insert`, `erase`, `value`, `update`);
* `Node`, `check_value`, `check_node`, `check_tree` are the introspection view
  of the tree and the verifier of `Tester`, with the `operator!=` of the value type as a
  parameter (`intNe` for `int`, `Foo.ne` for `Foo`);
* `LNode`, `LazyUpdate` model the core of `LazyUpdate.h` from the specification, since
  that header is not among the sources.
-/

namespace LazyAVL

universe u v

/-! ## `std::map` as the list of its entries in iteration order -/

/-- Entries of a `std::map<K, V>`, listed in iteration order (`begin()` to `end()`). -/
abbrev StdMap (K : Type u) (V : Type v) := List (K × V)

namespace StdMap

variable {K : Type u} {V : Type v}

/-- Class invariant of `std::map`: iteration visits keys in strictly ascending order
(hence every key at most once). -/
def Ordered [LT K] (m : StdMap K V) : Prop :=
  (m.map Prod.fst).Pairwise (· < ·)

instance instDecidableOrdered [LT K] [DecidableRel (fun (a b : K) => a < b)]
    (m : StdMap K V) : Decidable (Ordered m) := by
  unfold Ordered; infer_instance

/-- Lookup `std::map::find`: the mapped value of the entry with the given key, if any. -/
def find? [DecidableEq K] : StdMap K V → K → Option V
  | [], _ => none
  | (k, v) :: rest, key => if k = key then some v else find? rest key

/-- Membership test `std::map::contains`. -/
def contains [DecidableEq K] (m : StdMap K V) (key : K) : Bool :=
  (find? m key).isSome

/-- Insertion `std::map::emplace(key, value)`: puts the entry at its place in key order;
does nothing when an entry with that key exists. -/
def emplace [LinearOrder K] : StdMap K V → K → V → StdMap K V
  | [], key, value => [(key, value)]
  | (k, v) :: rest, key, value =>
    if key < k then (key, value) :: (k, v) :: rest
    else if k < key then (k, v) :: emplace rest key value
    else (k, v) :: rest

/-- Removal `std::map::erase(key)`: removes the entry with that key, if there is one. -/
def erase [DecidableEq K] : StdMap K V → K → StdMap K V
  | [], _ => []
  | (k, v) :: rest, key => if k = key then rest else (k, v) :: erase rest key

/-- Iterator `std::map::lower_bound(first)`: the position of the first entry whose key is
not less than `first`, given as the entries before the iterator and the entries from the
iterator on. -/
def lower_bound [LinearOrder K] (m : StdMap K V) (first : K) : StdMap K V × StdMap K V :=
  (m.takeWhile (fun p => decide (p.1 < first)), m.dropWhile (fun p => decide (p.1 < first)))

end StdMap

/-! ## The reference oracle `Ref` -/

/-- The oracle `Ref<K, V, Op>`: its only data member besides the operator is `map`. -/
structure Ref (K : Type u) (V : Type v) where
  map : StdMap K V

namespace Ref

variable {K : Type u} {V : Type v}

/-- The empty oracle (default construction). -/
def empty : Ref K V := ⟨[]⟩

/-- Lookup `Ref::value(key)`: empty when the key is not contained, `map.at(key)` otherwise. -/
def value [DecidableEq K] (r : Ref K V) (key : K) : Option V :=
  if !(StdMap.contains r.map key) then none else StdMap.find? r.map key

/-- Insertion `Ref::insert(key, value)`: `false` and no change when the key is contained,
otherwise `map.emplace(key, value)` and `true`. -/
def insert [LinearOrder K] (r : Ref K V) (key : K) (value : V) : Bool × Ref K V :=
  if StdMap.contains r.map key then (false, r)
  else (true, ⟨StdMap.emplace r.map key value⟩)

/-- Removal `Ref::erase(key)`: returns `value(key)` taken before `map.erase(key)`. -/
def erase [DecidableEq K] (r : Ref K V) (key : K) : Option V × Ref K V :=
  let ret := r.value key
  (ret, ⟨StdMap.erase r.map key⟩)

/-- The `while` loop of `Ref::update`, run on the entries from the iterator on:
as long as the iterator is not at the end and its key is `<= last`, the mapped value
becomes `op(it->second, by)` and the iterator advances. -/
def updateLoop [LinearOrder K] (op : V → V → V) (last : K) (d : V) :
    StdMap K V → StdMap K V
  | [] => []
  | (k, v) :: rest =>
    if k ≤ last then (k, op v d) :: updateLoop op last d rest
    else (k, v) :: rest

/-- Range update `Ref::update(first, last, by)`: starts at `map.lower_bound(first)` and
runs the loop. -/
def update [LinearOrder K] (op : V → V → V) (r : Ref K V) (first last : K) (d : V) :
    Ref K V :=
  let it := StdMap.lower_bound r.map first
  ⟨it.1 ++ updateLoop op last d it.2⟩

/-- Iteration `begin()` .. `end()`: the entries in iteration order. -/
def entries (r : Ref K V) : List (K × V) := r.map

/-- The stored keys, in iteration order. -/
def keys (r : Ref K V) : List K := r.map.map Prod.fst

/-- The expected effect of a range update on the value `v` stored at key `k`:
`op(v, by)` when `first <= k <= last`, and `v` otherwise. -/
def updated [LinearOrder K] (op : V → V → V) (first last : K) (d : V) (k : K) (v : V) : V :=
  if first ≤ k ∧ k ≤ last then op v d else v

end Ref

/-- The map of the `test_insert` scenario: keys 1..10 with values 10, 20, ..., 100. -/
def tenKeys : Ref Int Int :=
  ⟨[(1, 10), (2, 20), (3, 30), (4, 40), (5, 50), (6, 60), (7, 70), (8, 80), (9, 90), (10, 100)]⟩

/-! ## The tree as seen through `TesterInterface`, and the verifier of `Tester` -/

/-- A node pointer as `Tester` sees it through `TesterInterface`: `nil` is `nullptr`;
for a node, `addr` is its address, `parent` is what `TI::parent` returns (`none` for
`nullptr`, otherwise the address of a node), and the remaining fields are `TI::key`,
`TI::value` (raw), `TI::pending_update`, `TI::left` and `TI::right`. -/
inductive Node (K : Type u) (V : Type v) where
  | nil : Node K V
  | node (addr : Nat) (parent : Option Nat) (key : K) (value : V) (pending_update : V)
      (left right : Node K V) : Node K V

/-- The exception `TestFailed`, one constructor per message thrown by `Tester`: by the
verifier (`check_value`, `check_node`) and by the wrappers `insert`, `erase`, `value`
(whose `_throw` reports whether the reference succeeded). -/
inductive TestFailed where
  | referenceExhausted
  | keyMismatch
  | valueMismatch
  | parentMismatch
  | notBalanced (l_depth r_depth : Int)
  | insertMismatch (ref_succeeded : Bool)
  | eraseMismatch (ref_succeeded : Bool)
  | eraseValueMismatch
  | lookupMismatch (ref_succeeded : Bool)
  | lookupValueMismatch
  deriving DecidableEq, Repr

/-- The constant `config::CHECK_DEPTH`. -/
def CHECK_DEPTH : Bool := true

section Verifier

variable {K : Type u} {V : Type v}

/-- The lambda `check_value(key, value, lazy)` of `check_tree`. Its captured iterator
`ref_it` is the list of reference entries not yet consumed; the result is the iterator
after `++ref_it`. The test `v != Op{}(value, lazy)` calls the `operator!=` of the value
type, which is the parameter `ne` (exact for `int`, a tolerance for `Foo`). -/
def check_value [DecidableEq K] (ne : V → V → Bool) (op : V → V → V)
    (ref_it : List (K × V)) (key : K) (value lazy : V) : Except TestFailed (List (K × V)) :=
  match ref_it with
  | [] => .error .referenceExhausted
  | (k, v) :: rest =>
    if k ≠ key then .error .keyMismatch
    else if ne v (op value lazy) then .error .valueMismatch
    else .ok rest

/-- The recursion `Tester::check_node(n, p, check_value, acc_lazy)`: returns the depth and
the reference iterator after the visit, or the exception thrown. -/
def check_node [DecidableEq K] (ne : V → V → Bool) (op : V → V → V) :
    Node K V → Option Nat → List (K × V) → V → Except TestFailed (Int × List (K × V))
  | .nil, _, ref_it, _ => .ok (-1, ref_it)
  | .node addr parent key value pending_update left right, p, ref_it, acc_lazy =>
    if parent ≠ p then .error .parentMismatch
    else
      let new_lazy := op acc_lazy pending_update
      match check_node ne op left (some addr) ref_it new_lazy with
      | .error e => .error e
      | .ok (l_depth, it1) =>
        match check_value ne op it1 key value new_lazy with
        | .error e => .error e
        | .ok it2 =>
          match check_node ne op right (some addr) it2 new_lazy with
          | .error e => .error e
          | .ok (r_depth, it3) =>
            if CHECK_DEPTH && decide ((l_depth - r_depth).natAbs > 1) then
              .error (.notBalanced l_depth r_depth)
            else .ok (max l_depth r_depth + 1, it3)

/-- The verifier `Tester::check_tree()`, on the root of the tree under test and the
reference: `check_node(root, nullptr, check_value, V{})` with `ref_it = ref.begin()`. -/
def check_tree [DecidableEq K] [Inhabited V] (ne : V → V → Bool) (op : V → V → V)
    (root : Node K V) (ref : Ref K V) : Except TestFailed Unit :=
  match check_node ne op root none ref.entries default with
  | .error e => .error e
  | .ok _ => .ok ()

/-- One node of a traversal: its key, raw value and pending delta, and the pending deltas
of its proper ancestors, root-most first. -/
structure Visit (K : Type u) (V : Type v) where
  key : K
  value : V
  pending : V
  ancestors : List V

/-- The in-order traversal of a tree below ancestors with pending deltas `anc`
(root-most first). -/
def Node.inorder : Node K V → List V → List (Visit K V)
  | .nil, _ => []
  | .node _ _ key value pending_update left right, anc =>
    left.inorder (anc ++ [pending_update])
      ++ ⟨key, value, pending_update, anc⟩ :: right.inorder (anc ++ [pending_update])

/-- The accumulated lazy `L(n)`: the left fold of `op` over the pending deltas on the path
root..n inclusive, in root-to-node order, started from `V{}`. -/
def Visit.pathLazy [Inhabited V] (op : V → V → V) (n : Visit K V) : V :=
  (n.ancestors ++ [n.pending]).foldl op default

/-- The effective value the verifier compares with the reference: `Op(value(n), L(n))`. -/
def Visit.checkedValue [Inhabited V] (op : V → V → V) (n : Visit K V) : V :=
  op n.value (n.pathLazy op)

/-- The sum `Σ` of invariant 3: the pending deltas of the proper ancestors, combined by
repeated application in ancestor order, root-most first. -/
def Visit.ancestorSum [Inhabited V] (combine : V → V → V) (n : Visit K V) : V :=
  n.ancestors.foldl combine default

/-- The effective value in the words of invariant 3 of the specification:
`combine(combine(value(n), pending(n)), Σ)`. -/
def Visit.specEffective [Inhabited V] (combine : V → V → V) (n : Visit K V) : V :=
  combine (combine n.value n.pending) (n.ancestorSum combine)

end Verifier

/-- A three-node tree with consistent parent links: root key 2 at address 0 with pending
delta 5, children key 1 (address 1, pending 7) and key 3 (address 2, pending 0). -/
def smallTree : Node Int Int :=
  .node 0 none 2 20 5
    (.node 1 (some 0) 1 10 7 .nil .nil)
    (.node 2 (some 0) 3 30 0 .nil .nil)

/-- The reference matching `smallTree`: effective values 22, 25 and 35. -/
def smallRef : Ref Int Int := ⟨[(1, 22), (2, 25), (3, 35)]⟩

/-- A two-node tree over lists with concatenation: the root has pending delta `[1]`, its
left child has pending delta `[2]`. -/
def listTree : Node Nat (List Nat) :=
  .node 0 none 2 [] [1] (.node 1 (some 0) 1 [] [2] .nil .nil) .nil

/-! ## Shape invariants of the tree, as the specification states them -/

section Shape

variable {K : Type u} {V : Type v}

/-- The height of a tree: `-1` for the empty tree, `0` for a single node, and one more
than the larger of the children's heights otherwise. -/
def Node.height : Node K V → Int
  | .nil => -1
  | .node _ _ _ _ _ left right => max left.height right.height + 1

/-- The balance invariant: every node satisfies `|height(left) - height(right)| <= 1`. -/
def Node.Balanced : Node K V → Prop
  | .nil => True
  | .node _ _ _ _ _ left right =>
    left.Balanced ∧ right.Balanced ∧ |left.height - right.height| ≤ 1

/-- Parent consistency below a given parent pointer `p` (`none` is `nullptr`): the parent
link of the root of the subtree is `p`, and the parent link of every child of a node `n`
is the address of `n`. -/
def Node.ParentsOk : Node K V → Option Nat → Prop
  | .nil, _ => True
  | .node addr parent _ _ _ left right, p =>
    parent = p ∧ left.ParentsOk (some addr) ∧ right.ParentsOk (some addr)

/-- The keys of the in-order traversal. -/
def Node.inorderKeys (t : Node K V) : List K :=
  (t.inorder []).map Visit.key

/-- A reference entry matches a visited node when `check_value` lets it pass: the keys
are equal and the reference value is not unequal, under the `operator!=` of the value
type, to the effective value `Op(value(n), L(n))`. -/
def Visit.MatchedBy [Inhabited V] (ne : V → V → Bool) (op : V → V → V) (e : K × V)
    (n : Visit K V) : Prop :=
  e.1 = n.key ∧ ne e.2 (n.checkedValue op) = false

/-- The reference entries `front` match the in-order traversal of the tree, entry by
entry. -/
def Node.MatchedBy [Inhabited V] (ne : V → V → Bool) (op : V → V → V) (t : Node K V)
    (front : List (K × V)) : Prop :=
  List.Forall₂ (Visit.MatchedBy ne op) front (t.inorder [])

end Shape

/-- A right chain of three nodes (keys 1, 2, 3) with consistent parent links: the root
has an empty left subtree and a right subtree of height 1. -/
def chainTree : Node Int Int :=
  .node 0 none 1 10 0 .nil
    (.node 1 (some 0) 2 20 0 .nil (.node 2 (some 1) 3 30 0 .nil .nil))

/-- The reference whose entries are the effective entries of `chainTree`. -/
def chainRef : Ref Int Int := ⟨[(1, 10), (2, 20), (3, 30)]⟩

/-- The tree `smallTree` with the parent link of the node of key 3 pointing at the node
of key 1 (address 1) instead of the root (address 0). -/
def strayTree : Node Int Int :=
  .node 0 none 2 20 5
    (.node 1 (some 0) 1 10 7 .nil .nil)
    (.node 2 (some 1) 3 30 0 .nil .nil)

/-- The tree `smallTree` with the keys of its two children exchanged, so that the
in-order keys are 3, 2, 1. -/
def swappedTree : Node Int Int :=
  .node 0 none 2 20 5
    (.node 1 (some 0) 3 10 7 .nil .nil)
    (.node 2 (some 0) 1 30 0 .nil .nil)

/-- The reference `smallRef` followed by two larger keys that `smallTree` does not
have. -/
def longRef : Ref Int Int := ⟨[(1, 22), (2, 25), (3, 35), (4, 40), (5, 50)]⟩

/-! ## The core `LazyUpdate`, modelled from the specification -/

/-- Modelled from the spec: the node store of the core `LazyUpdate` (`LazyUpdate.h` is
not among the sources). A node owns `key`, `value` (raw), `pending` (a delta owed to the
node and to its whole subtree), the balance metadata `height` and the two children. The
`parent` back-reference of the specification is the structural parent: in an owned tree it
is determined by the shape, so parent consistency holds by construction. -/
inductive LNode (K : Type u) (V : Type v) where
  | nil : LNode K V
  | node (key : K) (value : V) (pending : V) (height : Int) (left right : LNode K V) :
      LNode K V

namespace LNode

variable {K : Type u} {V : Type v}

/-- Modelled from the spec: the stored height, `-1` for the empty tree. -/
def height : LNode K V → Int
  | nil => -1
  | node _ _ _ h _ _ => h

/-- Modelled from the spec: the left child (introspection accessor). -/
def left : LNode K V → LNode K V
  | nil => nil
  | node _ _ _ _ l _ => l

/-- Modelled from the spec: the right child (introspection accessor). -/
def right : LNode K V → LNode K V
  | nil => nil
  | node _ _ _ _ _ r => r

/-- Modelled from the spec: a node with nothing owed (`pending` is the identity `V{}`)
and its height recomputed from its children. -/
def mk [Inhabited V] (l : LNode K V) (key : K) (value : V) (r : LNode K V) : LNode K V :=
  node key value default (max l.height r.height + 1) l r

/-- Modelled from the spec: combining a delta into the pending value of a node,
`pending ← combine(pending, delta)`; nothing happens on the empty tree. -/
def recv (op : V → V → V) (d : V) : LNode K V → LNode K V
  | nil => nil
  | node k v p h l r => node k v (op p d) h l r

/-- Modelled from the spec (§4.1): `push_down(n)` combines `pending(n)` into `value(n)`
and into the pending values of both children, and resets `pending(n)` to the identity. It
touches `n` and its immediate children only. -/
def push_down [Inhabited V] (op : V → V → V) : LNode K V → LNode K V
  | nil => nil
  | node k v p h l r => node k (op v p) default h (recv op p l) (recv op p r)

/-- Modelled from the spec (§4.2): right rotation, on nodes whose pending values have
been pushed down first. -/
def rotate_right [Inhabited V] (op : V → V → V) (t : LNode K V) : LNode K V :=
  match push_down op t with
  | nil => nil
  | node k v _ _ l r =>
    match push_down op l with
    | nil => t
    | node lk lv _ _ ll lr => mk ll lk lv (mk lr k v r)

/-- Modelled from the spec (§4.2): left rotation, on nodes whose pending values have been
pushed down first. -/
def rotate_left [Inhabited V] (op : V → V → V) (t : LNode K V) : LNode K V :=
  match push_down op t with
  | nil => nil
  | node k v _ _ l r =>
    match push_down op r with
    | nil => t
    | node rk rv _ _ rl rr => mk (mk l k v rl) rk rv rr

/-- Modelled from the spec (§4.2): the balance maintainer at one node: recompute the
height and, when the children's heights differ by more than one, perform the appropriate
single or double rotation. -/
def balance [Inhabited V] (op : V → V → V) : LNode K V → LNode K V
  | nil => nil
  | node k v p _ l r =>
    let h := max l.height r.height + 1
    if l.height > r.height + 1 then
      if l.left.height < l.right.height then
        rotate_right op (node k v p h (rotate_left op l) r)
      else rotate_right op (node k v p h l r)
    else if r.height > l.height + 1 then
      if r.right.height < r.left.height then
        rotate_left op (node k v p h l (rotate_right op r))
      else rotate_left op (node k v p h l r)
    else node k v p h l r

/-- Modelled from the spec (§4.3): key search without touching values, used to reject a
duplicate insert and a missing-key erase with no mutation. -/
def contains [LinearOrder K] (key : K) : LNode K V → Bool
  | nil => false
  | node k _ _ _ l r =>
    if key < k then contains key l else if k < key then contains key r else true

/-- Modelled from the spec (§4.3): `lookup`, the effective value of `key`: the raw value
combined with the node's own pending delta and then with the pending deltas of its
ancestors (the result of resolving every pending delta on the search path). -/
def lookup [LinearOrder K] (op : V → V → V) (key : K) : LNode K V → Option V
  | nil => none
  | node k v p _ l r =>
    if key < k then (lookup op key l).map (fun x => op x p)
    else if k < key then (lookup op key r).map (fun x => op x p)
    else some (op v p)

/-- Modelled from the spec (§4.3): descent of `insert` into a subtree to which the
parent's push-down owes the delta `owed`: the node receives `owed`, is pushed down, the
new node (identity pending, raw value) is placed in key order and every node on the way
back is rebalanced. -/
def ins [LinearOrder K] [Inhabited V] (op : V → V → V) (key : K) (value : V) :
    V → LNode K V → LNode K V
  | _, nil => mk nil key value nil
  | owed, node k v p _ l r =>
    let q := op p owed
    if key < k then balance op (mk (ins op key value q l) k (op v q) (recv op q r))
    else if k < key then balance op (mk (recv op q l) k (op v q) (ins op key value q r))
    else mk (recv op q l) k (op v q) (recv op q r)

/-- Modelled from the spec (§4.3): removal of the smallest key of a subtree owed `owed`
(the successor of the erased key): its key, its effective value and the rebalanced rest. -/
def popMin [Inhabited V] (op : V → V → V) : V → LNode K V → Option (K × V × LNode K V)
  | _, nil => none
  | owed, node k v p _ l r =>
    let q := op p owed
    match popMin op q l with
    | none => some (k, op v q, recv op q r)
    | some (sk, sv, l') => some (sk, sv, balance op (mk l' k (op v q) (recv op q r)))

/-- Modelled from the spec (§4.3): descent of `erase` into a subtree owed `owed`:
standard deletion (leaf removal, single-child bypass, or two-child successor splice) with
push-down on the way down and rebalancing on the way back. -/
def del [LinearOrder K] [Inhabited V] (op : V → V → V) (key : K) :
    V → LNode K V → LNode K V
  | _, nil => nil
  | owed, node k v p _ l r =>
    let q := op p owed
    if key < k then balance op (mk (del op key q l) k (op v q) (recv op q r))
    else if k < key then balance op (mk (recv op q l) k (op v q) (del op key q r))
    else
      match l with
      | nil => recv op q r
      | node _ _ _ _ _ _ =>
        match popMin op q r with
        | none => recv op q l
        | some (sk, sv, r') => balance op (mk (recv op q l) sk sv r')

/-- Modelled from the spec (§9): `join` of a taller left tree (owed `owed`) with a middle
entry and a right tree, descending the right spine of the left tree. -/
def joinRight [Inhabited V] (op : V → V → V) :
    V → LNode K V → K → V → LNode K V → LNode K V
  | _, nil, key, value, r => mk nil key value r
  | owed, node k v p _ ll lr, key, value, r =>
    let q := op p owed
    if lr.height ≤ r.height + 1 then
      balance op (mk (recv op q ll) k (op v q) (mk (recv op q lr) key value r))
    else balance op (mk (recv op q ll) k (op v q) (joinRight op q lr key value r))

/-- Modelled from the spec (§9): `join` of a left tree with a middle entry and a taller
right tree (owed `owed`), descending the left spine of the right tree. -/
def joinLeft [Inhabited V] (op : V → V → V) :
    V → LNode K V → K → V → LNode K V → LNode K V
  | _, l, key, value, nil => mk l key value nil
  | owed, l, key, value, node k v p _ rl rr =>
    let q := op p owed
    if rl.height ≤ l.height + 1 then
      balance op (mk (mk l key value (recv op q rl)) k (op v q) (recv op q rr))
    else balance op (mk (joinLeft op q l key value rl) k (op v q) (recv op q rr))

/-- Modelled from the spec (§9): `join` of two trees around a middle entry, all keys of
`l` below `key` and all keys of `r` above it; the result is balanced. -/
def join3 [Inhabited V] (op : V → V → V) (l : LNode K V) (key : K) (value : V)
    (r : LNode K V) : LNode K V :=
  if l.height > r.height + 1 then joinRight op default l key value r
  else if r.height > l.height + 1 then joinLeft op default l key value r
  else mk l key value r

/-- Modelled from the spec (§9): `join(Tree, Tree)`, left keys all less than right keys:
the smallest entry of the right tree becomes the middle entry. -/
def join2 [Inhabited V] (op : V → V → V) (l r : LNode K V) : LNode K V :=
  match popMin op default r with
  | none => l
  | some (k, v, r') => join3 op l k v r'

/-- Modelled from the spec (§9): `split(tree, key)`, for a subtree owed `owed`: the keys
on which `below` holds go to the first tree, the others to the second; `below` is
`key < first` or `key <= last`. Nodes are pushed down on the way and the parts re-joined. -/
def split [Inhabited V] (op : V → V → V) (below : K → Bool) :
    V → LNode K V → LNode K V × LNode K V
  | _, nil => (nil, nil)
  | owed, node k v p _ l r =>
    let q := op p owed
    if below k then
      let s := split op below q r
      (join3 op (recv op q l) k (op v q) s.1, s.2)
    else
      let s := split op below q l
      (s.1, join3 op s.2 k (op v q) (recv op q r))

/-- The effective entries of a subtree owed `owed`, in key order: every raw value
combined with the node's own pending delta, then with those of its ancestors, then with
`owed`. -/
def entries (op : V → V → V) : V → LNode K V → List (K × V)
  | _, nil => []
  | owed, node k v p _ l r =>
    entries op (op p owed) l ++ (k, op v (op p owed)) :: entries op (op p owed) r

/-- The standing assumptions of the specification on the operator: `op` is associative and `V{}` is its
identity on the right (nothing owed changes nothing). -/
structure Lawful [Inhabited V] (op : V → V → V) : Prop where
  assoc : ∀ a b c : V, op (op a b) c = op a (op b c)
  right_id : ∀ a : V, op a default = a

/-- The keys of a tree, in order (left subtree, node, right subtree). -/
def keys : LNode K V → List K
  | nil => []
  | node k _ _ _ l r => keys l ++ k :: keys r

/-- Invariant 1 of the specification (search-tree order, which includes key uniqueness):
the in-order keys are strictly ascending. -/
def Bst [LT K] (t : LNode K V) : Prop := t.keys.Pairwise (· < ·)

end LNode

/-- Modelled from the spec: the core `LazyUpdate<K, V, Op>`, a tree owning a single
optional root node. -/
structure LazyUpdate (K : Type u) (V : Type v) where
  root : LNode K V

namespace LazyUpdate

variable {K : Type u} {V : Type v}

/-- Modelled from the spec: the empty core. -/
def empty : LazyUpdate K V := ⟨.nil⟩

/-- Modelled from the spec (§4.3): `insert(key, value)`: `false` and no mutation when the
key is present, otherwise the new node is inserted and the tree rebalanced. -/
def insert [LinearOrder K] [Inhabited V] (op : V → V → V) (t : LazyUpdate K V) (key : K)
    (value : V) : Bool × LazyUpdate K V :=
  if t.root.contains key then (false, t)
  else (true, ⟨t.root.ins op key value default⟩)

/-- Modelled from the spec (§4.3): `lookup(key)` (called `value` by the tester): the
effective value if present, else empty. -/
def value [LinearOrder K] (op : V → V → V) (t : LazyUpdate K V) (key : K) : Option V :=
  t.root.lookup op key

/-- Modelled from the spec (§4.3): `erase(key)`: the effective value of `key` and the
tree without the node, or empty and no mutation when the key is absent. -/
def erase [LinearOrder K] [Inhabited V] (op : V → V → V) (t : LazyUpdate K V) (key : K) :
    Option V × LazyUpdate K V :=
  match t.root.lookup op key with
  | none => (none, t)
  | some v => (some v, ⟨t.root.del op key default⟩)

/-- Modelled from the spec (§4.4): `update(first, last, delta)`: a no-op when
`first > last`; otherwise split at `first`, split the upper part after `last`, attach
`delta` at the root of the middle tree by `pending ← combine(pending, delta)`, and join
the three trees back in key order. -/
def update [LinearOrder K] [Inhabited V] (op : V → V → V) (t : LazyUpdate K V)
    (first last : K) (d : V) : LazyUpdate K V :=
  if last < first then t
  else
    let s1 := LNode.split op (fun k => decide (k < first)) default t.root
    let s2 := LNode.split op (fun k => decide (k ≤ last)) default s1.2
    ⟨LNode.join2 op (LNode.join2 op s1.1 (LNode.recv op d s2.1)) s2.2⟩

end LazyUpdate

/-- One call of the public operation surface, as issued by the test driver. -/
inductive Call (K : Type u) (V : Type v) where
  | insert (key : K) (value : V)
  | erase (key : K)
  | value (key : K)
  | update (first last : K) (d : V)

/-- What a call reports: the boolean of `insert`, the optional of `erase` and `value`,
nothing for `update`. -/
inductive Reply (V : Type v) where
  | insert (ok : Bool)
  | erase (removed : Option V)
  | value (found : Option V)
  | update
  deriving DecidableEq, Repr

section Runs

variable {K : Type u} {V : Type v}

/-- One call on the oracle. -/
def Ref.call [LinearOrder K] (op : V → V → V) (r : Ref K V) : Call K V → Reply V × Ref K V
  | .insert key value => let s := r.insert key value; (.insert s.1, s.2)
  | .erase key => let s := r.erase key; (.erase s.1, s.2)
  | .value key => (.value (r.value key), r)
  | .update first last d => (.update, r.update op first last d)

/-- One call on the core. -/
def LazyUpdate.call [LinearOrder K] [Inhabited V] (op : V → V → V) (t : LazyUpdate K V) :
    Call K V → Reply V × LazyUpdate K V
  | .insert key value => let s := t.insert op key value; (.insert s.1, s.2)
  | .erase key => let s := t.erase op key; (.erase s.1, s.2)
  | .value key => (.value (t.value op key), t)
  | .update first last d => (.update, t.update op first last d)

/-- A sequence of calls on the oracle: the replies in order and the final oracle. -/
def Ref.run [LinearOrder K] (op : V → V → V) : Ref K V → List (Call K V) →
    List (Reply V) × Ref K V
  | r, [] => ([], r)
  | r, c :: cs =>
    let s := r.call op c
    let rest := Ref.run op s.2 cs
    (s.1 :: rest.1, rest.2)

/-- A sequence of calls on the core: the replies in order and the final core. -/
def LazyUpdate.run [LinearOrder K] [Inhabited V] (op : V → V → V) :
    LazyUpdate K V → List (Call K V) → List (Reply V) × LazyUpdate K V
  | t, [] => ([], t)
  | t, c :: cs =>
    let s := t.call op c
    let rest := LazyUpdate.run op s.2 cs
    (s.1 :: rest.1, rest.2)

end Runs

/-! ## The harness `Tester` -/

/-- The harness `Tester<K, V, Op>`: the core under test `stud` and the oracle `ref`. -/
structure Tester (K : Type u) (V : Type v) where
  stud : LazyUpdate K V
  ref : Ref K V

namespace Tester

variable {K : Type u} {V : Type v}

/-- The comparison `r != s` of two `std::optional<V>`: unequal when exactly one is empty,
equal when both are, and decided by the `operator!=` of the value type otherwise. -/
def optNe (ne : V → V → Bool) : Option V → Option V → Bool
  | some a, some b => ne a b
  | none, none => false
  | _, _ => true

/-- The method `Tester::check_tree() const` on the harness: the verifier is run on the
root of `stud` (the accessor `TesterInterface::root` of `LazyUpdate.h`, with the node
accessors below it, is the parameter `TI_root`) and on `ref`; being `const` and reading
through accessors only, it leaves the harness as it is. -/
def check_tree [DecidableEq K] [Inhabited V] (TI_root : LazyUpdate K V → Node K V)
    (ne : V → V → Bool) (op : V → V → V) (t : Tester K V) : Except TestFailed (Tester K V) :=
  match LazyAVL.check_tree ne op (TI_root t.stud) t.ref with
  | .error e => .error e
  | .ok _ => .ok t

/-- The tail `if (check_tree_) check_tree();` of every wrapper. -/
def finish [DecidableEq K] [Inhabited V] (TI_root : LazyUpdate K V → Node K V)
    (ne : V → V → Bool) (op : V → V → V) (t : Tester K V) (check_tree_ : Bool) :
    Except TestFailed (Tester K V) :=
  if check_tree_ then t.check_tree TI_root ne op else .ok t

/-- The wrapper `Tester::insert(key, value, check_tree_)`. -/
def insert [LinearOrder K] [Inhabited V] (TI_root : LazyUpdate K V → Node K V)
    (ne : V → V → Bool) (op : V → V → V) (t : Tester K V) (key : K) (value : V)
    (check_tree_ : Bool) : Except TestFailed (Tester K V) :=
  let r := t.ref.insert key value
  let s := t.stud.insert op key value
  if r.1 ≠ s.1 then .error (.insertMismatch r.1)
  else finish TI_root ne op ⟨s.2, r.2⟩ check_tree_

/-- The wrapper `Tester::erase(key, check_tree_)`. -/
def erase [LinearOrder K] [Inhabited V] (TI_root : LazyUpdate K V → Node K V)
    (ne : V → V → Bool) (op : V → V → V) (t : Tester K V) (key : K) (check_tree_ : Bool) :
    Except TestFailed (Tester K V) :=
  let r := t.ref.erase key
  let s := t.stud.erase op key
  if r.1.isSome ≠ s.1.isSome then .error (.eraseMismatch r.1.isSome)
  else if optNe ne r.1 s.1 then .error .eraseValueMismatch
  else finish TI_root ne op ⟨s.2, r.2⟩ check_tree_

/-- The wrapper `Tester::value(key, check_tree_)`. -/
def value [LinearOrder K] [Inhabited V] (TI_root : LazyUpdate K V → Node K V)
    (ne : V → V → Bool) (op : V → V → V) (t : Tester K V) (key : K) (check_tree_ : Bool) :
    Except TestFailed (Tester K V) :=
  let r := t.ref.value key
  let s := t.stud.value op key
  if r.isSome ≠ s.isSome then .error (.lookupMismatch r.isSome)
  else if optNe ne r s then .error .lookupValueMismatch
  else finish TI_root ne op t check_tree_

/-- The wrapper `Tester::update(first, last, by, check_tree_)`. -/
def update [LinearOrder K] [Inhabited V] (TI_root : LazyUpdate K V → Node K V)
    (ne : V → V → Bool) (op : V → V → V) (t : Tester K V) (first last : K) (d : V)
    (check_tree_ : Bool) : Except TestFailed (Tester K V) :=
  finish TI_root ne op ⟨t.stud.update op first last d, t.ref.update op first last d⟩
    check_tree_

/-- One call of the test driver on the harness. -/
def call [LinearOrder K] [Inhabited V] (TI_root : LazyUpdate K V → Node K V)
    (ne : V → V → Bool) (op : V → V → V) (t : Tester K V) (check_tree_ : Bool) :
    Call K V → Except TestFailed (Tester K V)
  | .insert key value => t.insert TI_root ne op key value check_tree_
  | .erase key => t.erase TI_root ne op key check_tree_
  | .value key => t.value TI_root ne op key check_tree_
  | .update first last d => t.update TI_root ne op first last d check_tree_

/-- A sequence of calls of the test driver on the harness, stopping at the first
exception. -/
def run [LinearOrder K] [Inhabited V] (TI_root : LazyUpdate K V → Node K V)
    (ne : V → V → Bool) (op : V → V → V) (check_tree_ : Bool) : Tester K V →
    List (Call K V) → Except TestFailed (Tester K V)
  | t, [] => .ok t
  | t, c :: cs =>
    match t.call TI_root ne op check_tree_ c with
    | .error e => .error e
    | .ok t' => run TI_root ne op check_tree_ t' cs

end Tester

/-- A short run of the test driver: five inserts, a duplicate insert, range updates
(among them an invalid and an identity one), lookups and erases, with an erase miss. -/
def sampleCalls : List (Call Int Int) :=
  [.insert 3 30, .insert 1 10, .insert 5 50, .insert 2 20, .insert 4 40, .insert 1 999,
    .update 2 4 5, .value 3, .value 1, .update 4 2 7, .erase 3, .erase 3, .update 5 5 0,
    .update 1 9 (-8), .value 5, .value 6, .erase 1]

/-! ## The value types of the tests and their `operator!=` -/

/-- The built-in `operator!=` of `int`: exact inequality. -/
def intNe (a b : Int) : Bool := decide (a ≠ b)

/-- The value type `Foo` of `test_random`: `unsigned x` and `double y`. The `double`
is idealised as a rational number; the values used below (`1` and `1 + 2^-44`) are
doubles, the products `Foo::Bar` forms of them are exact on doubles too, and their
distance `2^-44` is far below the tolerance `2e-12` that `operator==` compares it with. -/
structure Foo where
  x : Nat
  y : Rat
  deriving DecidableEq

/-- The default member initialisers of `Foo`: `Foo{}` is `{0, 1}`. -/
instance Foo.instInhabited : Inhabited Foo := ⟨⟨0, 1⟩⟩

/-- The friend `operator==` of `Foo`: equal `x`, and `y` within the relative tolerance
`1e-12`. -/
def Foo.eq (a b : Foo) : Bool :=
  if a.x ≠ b.x then false
  else decide (|a.y - b.y| ≤ (1 / 10 ^ 12) * (|a.y| + |b.y|))

/-- The `operator!=` of `Foo`, which the language derives from `operator==`. -/
def Foo.ne (a b : Foo) : Bool := !(Foo.eq a b)

/-- The operator `Foo::Bar`: `{a.x + b.x, a.y * b.y}`, with `unsigned` addition. -/
def Foo.Bar (a b : Foo) : Foo := ⟨(a.x + b.x) % 2 ^ 32, a.y * b.y⟩

/-- The value `Foo{0, 1}`, which is `Foo{}`. -/
def fooOne : Foo := ⟨0, 1⟩

/-- The value `Foo{0, 1 + 2^-44}`. -/
def fooNear : Foo := ⟨0, 1 + 1 / 2 ^ 44⟩

/-- A single node of key 1 with raw value `{0, 1}` and nothing pending (`Foo{}`). -/
def fooTree : Node Int Foo := .node 0 none 1 fooOne fooOne .nil .nil

/-- A reference that stores `{0, 1 + 2^-44}` for key 1: within the tolerance of
`{0, 1}`, and not equal to it. -/
def fooRef : Ref Int Foo := ⟨[(1, fooNear)]⟩

/-! ## Lemmas on the map model -/

namespace StdMap

variable {K : Type u} {V : Type v}

theorem ordered_cons [LT K] {p : K × V} {m : StdMap K V} :
    Ordered (p :: m) ↔ (∀ q ∈ m, p.1 < q.1) ∧ Ordered m := by
  unfold Ordered
  simp [List.pairwise_cons]

theorem find?_map_snd [DecidableEq K] (f : K → V → V) (m : StdMap K V) (key : K) :
    find? (m.map (fun p => (p.1, f p.1 p.2))) key = (find? m key).map (f key) := by
  induction m with
  | nil => rfl
  | cons p rest ih =>
    obtain ⟨k, v⟩ := p
    by_cases hk : k = key
    · subst hk; simp [find?]
    · simp [find?, hk, ih]

theorem find?_eq_none_of_forall_ne [DecidableEq K] {m : StdMap K V} {key : K}
    (h : ∀ q ∈ m, q.1 ≠ key) : find? m key = none := by
  induction m with
  | nil => rfl
  | cons p rest ih =>
    obtain ⟨k, v⟩ := p
    have hk : k ≠ key := h (k, v) (List.mem_cons_self _ _)
    simp only [find?, hk, if_false]
    exact ih (fun q hq => h q (List.mem_cons_of_mem _ hq))

theorem find?_emplace_self [LinearOrder K] (m : StdMap K V) (key : K) (value : V)
    (h : find? m key = none) : find? (emplace m key value) key = some value := by
  induction m with
  | nil => simp [emplace, find?]
  | cons p rest ih =>
    obtain ⟨k, v⟩ := p
    have hk : k ≠ key := by
      intro hk; simp [find?, hk] at h
    have hrest : find? rest key = none := by simpa [find?, hk] using h
    unfold emplace
    by_cases h1 : key < k
    · simp [h1, find?]
    · have h2 : k < key := lt_of_le_of_ne (not_lt.mp h1) hk
      simp [h1, h2, find?, hk, ih hrest]

theorem find?_emplace_of_ne [LinearOrder K] (m : StdMap K V) (key : K) (value : V)
    (k' : K) (hne : k' ≠ key) : find? (emplace m key value) k' = find? m k' := by
  induction m with
  | nil => simp [emplace, find?, Ne.symm hne]
  | cons p rest ih =>
    obtain ⟨k, v⟩ := p
    unfold emplace
    by_cases h1 : key < k
    · simp [h1, find?, Ne.symm hne]
    · by_cases h2 : k < key
      · simp [h1, h2, find?, ih]
      · simp [h1, h2]

theorem find?_erase_self [LinearOrder K] (m : StdMap K V) (key : K) (h : Ordered m) :
    find? (erase m key) key = none := by
  induction m with
  | nil => rfl
  | cons p rest ih =>
    obtain ⟨k, v⟩ := p
    rw [ordered_cons] at h
    by_cases hk : k = key
    · subst hk
      simp only [erase, if_true]
      exact find?_eq_none_of_forall_ne (fun q hq => (ne_of_lt (h.1 q hq)).symm)
    · simp [erase, find?, hk, ih h.2]

theorem find?_erase_of_ne [DecidableEq K] (m : StdMap K V) (key k' : K) (hne : k' ≠ key) :
    find? (erase m key) k' = find? m k' := by
  induction m with
  | nil => rfl
  | cons p rest ih =>
    obtain ⟨k, v⟩ := p
    by_cases hk : k = key
    · subst hk
      simp [erase, find?, Ne.symm hne]
    · simp [erase, find?, hk, ih]

theorem erase_of_find?_eq_none [DecidableEq K] (m : StdMap K V) (key : K)
    (h : find? m key = none) : erase m key = m := by
  induction m with
  | nil => rfl
  | cons p rest ih =>
    obtain ⟨k, v⟩ := p
    have hk : k ≠ key := by
      intro hk; simp [find?, hk] at h
    have hrest : find? rest key = none := by simpa [find?, hk] using h
    simp [erase, hk, ih hrest]

end StdMap

namespace Ref

variable {K : Type u} {V : Type v}

theorem value_eq_find? [DecidableEq K] (r : Ref K V) (key : K) :
    r.value key = StdMap.find? r.map key := by
  unfold value StdMap.contains
  cases h : StdMap.find? r.map key <;> simp

theorem updateLoop_keys [LinearOrder K] (op : V → V → V) (last : K) (d : V)
    (m : StdMap K V) : (updateLoop op last d m).map Prod.fst = m.map Prod.fst := by
  induction m with
  | nil => rfl
  | cons p rest ih =>
    obtain ⟨k, v⟩ := p
    by_cases hk : k ≤ last <;> simp [updateLoop, hk, ih]

theorem updateLoop_eq_map [LinearOrder K] (op : V → V → V) (first last : K) (d : V)
    (m : StdMap K V) (hlo : ∀ q ∈ m, first ≤ q.1) (h : StdMap.Ordered m) :
    updateLoop op last d m = m.map (fun p => (p.1, updated op first last d p.1 p.2)) := by
  induction m with
  | nil => rfl
  | cons p rest ih =>
    obtain ⟨k, v⟩ := p
    rw [StdMap.ordered_cons] at h
    have hk1 : first ≤ k := hlo (k, v) (List.mem_cons_self _ _)
    have hrest := ih (fun q hq => hlo q (List.mem_cons_of_mem _ hq)) h.2
    by_cases hk : k ≤ last
    · simp [updateLoop, hk, hk1, updated, hrest]
    · have hall : ∀ q ∈ rest, (q.1, updated op first last d q.1 q.2) = q := by
        intro q hq
        have : ¬ q.1 ≤ last := fun hq' => hk (le_trans (le_of_lt (h.1 q hq)) hq')
        simp [updated, this]
      have hmap : rest.map (fun p => (p.1, updated op first last d p.1 p.2)) = rest := by
        conv_rhs => rw [← List.map_id rest]
        exact List.map_congr_left (fun q hq => by simpa using hall q hq)
      have hhead : updated op first last d k v = v := by simp [updated, hk]
      simp only [updateLoop, hk, if_false, List.map_cons, hmap, hhead]

theorem update_map_eq [LinearOrder K] (op : V → V → V) (r : Ref K V) (first last : K)
    (d : V) (h : StdMap.Ordered r.map) :
    (r.update op first last d).map
      = r.map.map (fun p => (p.1, updated op first last d p.1 p.2)) := by
  obtain ⟨m⟩ := r
  simp only [update, StdMap.lower_bound]
  induction m with
  | nil => rfl
  | cons p rest ih =>
    obtain ⟨k, v⟩ := p
    have h' := h
    rw [StdMap.ordered_cons] at h'
    by_cases hk : k < first
    · have hnot : ¬ first ≤ k := not_le.mpr hk
      simp only [List.takeWhile_cons, List.dropWhile_cons, hk, decide_True, if_true,
        List.cons_append, List.map_cons, updated, hnot, false_and, if_false]
      rw [ih h'.2]
      rfl
    · have hge : first ≤ k := not_lt.mp hk
      simp only [List.takeWhile_cons, List.dropWhile_cons, hk, decide_False, List.nil_append]
      apply updateLoop_eq_map op first last d _ _ h
      intro q hq
      rcases List.mem_cons.mp hq with rfl | hq
      · exact hge
      · exact le_trans hge (le_of_lt (h'.1 q hq))

theorem update_keys [LinearOrder K] (op : V → V → V) (r : Ref K V) (first last : K)
    (d : V) : (r.update op first last d).map.map Prod.fst = r.map.map Prod.fst := by
  obtain ⟨m⟩ := r
  simp only [update, StdMap.lower_bound, List.map_append, updateLoop_keys]
  rw [← List.map_append, List.takeWhile_append_dropWhile]

theorem update_value [LinearOrder K] (op : V → V → V) (r : Ref K V) (first last : K)
    (d : V) (h : StdMap.Ordered r.map) (k : K) :
    (r.update op first last d).value k = (r.value k).map (updated op first last d k) := by
  rw [value_eq_find?, value_eq_find?, update_map_eq op r first last d h]
  exact StdMap.find?_map_snd (updated op first last d) r.map k

theorem mem_keys_iff_value [DecidableEq K] (r : Ref K V) (key : K) :
    key ∈ r.keys ↔ (r.value key).isSome = true := by
  obtain ⟨m⟩ := r
  rw [value_eq_find?]
  simp only [keys]
  induction m with
  | nil => simp [StdMap.find?]
  | cons p rest ih =>
    obtain ⟨k, v⟩ := p
    by_cases hk : k = key
    · subst hk; simp [StdMap.find?]
    · simp only [List.map_cons, List.mem_cons, StdMap.find?, hk, if_false]
      rw [← ih]
      constructor
      · rintro (h | h)
        · exact absurd h.symm hk
        · exact h
      · exact Or.inr

theorem value_eq_some_of_mem [LinearOrder K] (r : Ref K V) (key : K) (v : V)
    (h : StdMap.Ordered r.map) (hmem : (key, v) ∈ r.map) : r.value key = some v := by
  obtain ⟨m⟩ := r
  rw [value_eq_find?]
  simp only at h hmem ⊢
  induction m with
  | nil => simp at hmem
  | cons p rest ih =>
    obtain ⟨k, w⟩ := p
    rw [StdMap.ordered_cons] at h
    rcases List.mem_cons.mp hmem with heq | hmem
    · cases heq; simp [StdMap.find?]
    · have hk : k ≠ key := ne_of_lt (h.1 (key, v) hmem)
      simp [StdMap.find?, hk, ih h.2 hmem]

theorem updateLoop_of_head_gt [LinearOrder K] (op : V → V → V) (last : K) (d : V)
    (m : StdMap K V) (h : ∀ p ∈ m.head?, last < p.1) : updateLoop op last d m = m := by
  cases m with
  | nil => rfl
  | cons p rest =>
    obtain ⟨k, v⟩ := p
    have hk : ¬ k ≤ last := not_le.mpr (h (k, v) (by simp))
    simp [updateLoop, hk]

theorem updateLoop_identity [LinearOrder K] (op : V → V → V) (last : K) (e : V)
    (he : ∀ v, op v e = v) (m : StdMap K V) : updateLoop op last e m = m := by
  induction m with
  | nil => rfl
  | cons p rest ih =>
    obtain ⟨k, v⟩ := p
    by_cases hk : k ≤ last <;> simp [updateLoop, hk, he, ih]

theorem updateLoop_updateLoop [LinearOrder K] (op : V → V → V)
    (hassoc : ∀ a b c, op (op a b) c = op a (op b c)) (last : K) (a b : V)
    (m : StdMap K V) :
    updateLoop op last b (updateLoop op last a m) = updateLoop op last (op a b) m := by
  induction m with
  | nil => rfl
  | cons p rest ih =>
    obtain ⟨k, v⟩ := p
    by_cases hk : k ≤ last <;> simp [updateLoop, hk, hassoc, ih]

theorem update_map_cons [LinearOrder K] (op : V → V → V) (p : K × V) (m : StdMap K V)
    (first last : K) (d : V) :
    (update op ⟨p :: m⟩ first last d).map
      = if p.1 < first then p :: (update op ⟨m⟩ first last d).map
        else updateLoop op last d (p :: m) := by
  by_cases hk : p.1 < first <;> simp [update, StdMap.lower_bound, hk]

theorem update_cons_lt [LinearOrder K] (op : V → V → V) (p : K × V) (m : StdMap K V)
    (first last : K) (d : V) (hk : p.1 < first) :
    update op ⟨p :: m⟩ first last d = ⟨p :: (update op ⟨m⟩ first last d).map⟩ := by
  simp [update, StdMap.lower_bound, hk]

theorem update_cons_not_lt [LinearOrder K] (op : V → V → V) (p : K × V) (m : StdMap K V)
    (first last : K) (d : V) (hk : ¬ p.1 < first) :
    update op ⟨p :: m⟩ first last d = ⟨updateLoop op last d (p :: m)⟩ := by
  simp [update, StdMap.lower_bound, hk]

end Ref

/-! ## The claims on `Ref` -/

section RefClaims

variable {K : Type u} {V : Type v}

/-- C1: `Ref::update(first, last, by)` keeps the keys of the map, and the value of
every stored key `k` becomes `op(old, by)` when `first <= k <= last` and stays the old value
otherwise (a key that is not stored stays absent). -/
theorem Ref_update_contract [LinearOrder K] (op : V → V → V) (r : Ref K V)
    (first last : K) (d : V) (h : StdMap.Ordered r.map) :
    (r.update op first last d).keys = r.keys ∧
    ∀ k : K, (r.update op first last d).value k
      = (r.value k).map (fun v => if first ≤ k ∧ k ≤ last then op v d else v) := by
  refine ⟨Ref.update_keys op r first last d, fun k => ?_⟩
  rw [Ref.update_value op r first last d h k]
  rfl

/-- Witness of C1 on the `test_insert` scenario: keys 1..10, `update(3, 7, 5)`. -/
theorem Ref_update_contract_witness :
    StdMap.Ordered tenKeys.map ∧
    ((tenKeys.update (· + ·) 3 7 5).keys = tenKeys.keys ∧
      ∀ k : Int, (tenKeys.update (· + ·) 3 7 5).value k
        = (tenKeys.value k).map (fun v => if 3 ≤ k ∧ k ≤ 7 then v + 5 else v)) :=
  ⟨by decide, Ref_update_contract (· + ·) tenKeys 3 7 5 (by decide)⟩

/-- C2: range boundary exactness for integer keys: with `first <= last`, after
`update(first, last, delta)` the values at `first` and at `last` (when present) are
`op(old, delta)`, and the values at `first - 1` and `last + 1` (when present) are
unchanged. -/
theorem Ref_update_boundary (op : V → V → V) (r : Ref Int V) (first last : Int) (d : V)
    (h : StdMap.Ordered r.map) (hfl : first ≤ last) :
    (r.update op first last d).value first = (r.value first).map (fun v => op v d) ∧
    (r.update op first last d).value last = (r.value last).map (fun v => op v d) ∧
    (r.update op first last d).value (first - 1) = r.value (first - 1) ∧
    (r.update op first last d).value (last + 1) = r.value (last + 1) := by
  have hin1 : Ref.updated op first last d first = fun v => op v d := by
    funext v; simp [Ref.updated, hfl]
  have hin2 : Ref.updated op first last d last = fun v => op v d := by
    funext v; simp [Ref.updated, hfl]
  have hout1 : Ref.updated op first last d (first - 1) = id := by
    funext v
    have : ¬ first ≤ first - 1 := by omega
    simp [Ref.updated, this]
  have hout2 : Ref.updated op first last d (last + 1) = id := by
    funext v
    have : ¬ last + 1 ≤ last := by omega
    simp [Ref.updated, this]
  refine ⟨?_, ?_, ?_, ?_⟩
  · rw [Ref.update_value op r first last d h, hin1]
  · rw [Ref.update_value op r first last d h, hin2]
  · rw [Ref.update_value op r first last d h, hout1, Option.map_id, id]
  · rw [Ref.update_value op r first last d h, hout2, Option.map_id, id]

/-- Witness of C2, the scenario of the specification: keys 1..10 with values
10, 20, ..., 100 and `update(3, 7, 5)` give `value(3) = 35`, `value(7) = 75`,
`value(2) = 20`, `value(8) = 80`. -/
theorem Ref_update_boundary_witness :
    StdMap.Ordered tenKeys.map ∧ (3 : Int) ≤ 7 ∧
    (tenKeys.update (· + ·) 3 7 5).value 3 = some 35 ∧
    (tenKeys.update (· + ·) 3 7 5).value 7 = some 75 ∧
    (tenKeys.update (· + ·) 3 7 5).value (3 - 1) = some 20 ∧
    (tenKeys.update (· + ·) 3 7 5).value (7 + 1) = some 80 :=
  have h := Ref_update_boundary (· + ·) tenKeys 3 7 5 (by decide) (by decide)
  ⟨by decide, by decide, h.1.trans (by decide), h.2.1.trans (by decide),
    h.2.2.1.trans (by decide), h.2.2.2.trans (by decide)⟩

/-- C3: `Ref::insert(key, value)` returns `false` exactly when `key` is already
present; when it returns `false` the map is unchanged; when it returns `true` the value of
`key` afterwards is the inserted value and the value of every other key is unchanged. -/
theorem Ref_insert_contract [LinearOrder K] (r : Ref K V) (key : K) (value : V) :
    ((r.insert key value).1 = false ↔ key ∈ r.keys) ∧
    ((r.insert key value).1 = false → (r.insert key value).2 = r) ∧
    ((r.insert key value).1 = true →
      (r.insert key value).2.value key = some value ∧
      ∀ k : K, k ≠ key → (r.insert key value).2.value k = r.value k) := by
  have hmem := Ref.mem_keys_iff_value r key
  rw [Ref.value_eq_find?] at hmem
  by_cases hc : StdMap.contains r.map key = true
  · have hpres : key ∈ r.keys := hmem.mpr hc
    simp [Ref.insert, hc, hpres]
  · have habs : key ∉ r.keys := fun hk => hc (hmem.mp hk)
    have hnone : StdMap.find? r.map key = none := by
      simpa [StdMap.contains] using hc
    simp only [Ref.insert, hc, habs, Ref.value_eq_find?]
    refine ⟨by simp, by simp, fun _ => ⟨?_, fun k hk => ?_⟩⟩
    · exact StdMap.find?_emplace_self r.map key value hnone
    · exact StdMap.find?_emplace_of_ne r.map key value k hk

/-- Witness of C3, the scenario of the specification: after `insert(1, 100)`,
`insert(1, 999)` returns `false` and `value(1)` is `100`. -/
theorem Ref_insert_contract_witness :
    (((Ref.empty : Ref Int Int).insert 1 100).2.insert 1 999).1 = false ∧
    (((Ref.empty : Ref Int Int).insert 1 100).2.insert 1 999).2.value 1 = some 100 :=
  have h := Ref_insert_contract ((Ref.empty : Ref Int Int).insert 1 100).2 1 999
  have hfalse : ((((Ref.empty : Ref Int Int).insert 1 100).2).insert 1 999).1 = false :=
    h.1.mpr (by decide)
  ⟨hfalse, (congrArg (fun r => Ref.value r 1) (h.2.1 hfalse)).trans (by decide)⟩

/-- C4: `Ref::erase(key)` on a map that stores `v` for `key` returns `v`, afterwards
`key` is absent and the value of every other key is unchanged; on a map without `key` it
returns empty and the map is unchanged; in particular it returns empty on the empty map
and on a second erase of the same key. -/
theorem Ref_erase_contract [LinearOrder K] (r : Ref K V) (key : K)
    (h : StdMap.Ordered r.map) :
    (∀ v : V, (key, v) ∈ r.map →
      (r.erase key).1 = some v ∧ key ∉ (r.erase key).2.keys ∧
      ∀ k : K, k ≠ key → (r.erase key).2.value k = r.value k) ∧
    (key ∉ r.keys → (r.erase key).1 = none ∧ (r.erase key).2 = r) ∧
    (Ref.empty : Ref K V).erase key = (none, Ref.empty) ∧
    ((r.erase key).2.erase key).1 = none := by
  have hgone : (r.erase key).2.value key = none := by
    rw [Ref.value_eq_find?]
    exact StdMap.find?_erase_self r.map key h
  have hnot : key ∉ (r.erase key).2.keys := by
    intro hk
    have := (Ref.mem_keys_iff_value _ key).mp hk
    rw [hgone] at this
    simp at this
  refine ⟨fun v hv => ⟨?_, hnot, fun k hk => ?_⟩, fun habs => ?_, ?_, ?_⟩
  · exact Ref.value_eq_some_of_mem r key v h hv
  · rw [Ref.value_eq_find?, Ref.value_eq_find?]
    exact StdMap.find?_erase_of_ne r.map key k hk
  · have hnone : r.value key = none := by
      cases hv : r.value key with
      | none => rfl
      | some w =>
        exact absurd ((Ref.mem_keys_iff_value r key).mpr (by simp [hv])) habs
    refine ⟨hnone, ?_⟩
    rw [Ref.value_eq_find?] at hnone
    simp [Ref.erase, StdMap.erase_of_find?_eq_none r.map key hnone]
  · rfl
  · exact hgone

/-- Witness of C4 on the `test_erase` scenario: keys 1..10, `erase(10)` returns the
stored `100`. -/
theorem Ref_erase_contract_witness :
    StdMap.Ordered tenKeys.map ∧ (tenKeys.erase 10).1 = some 100 ∧
    (10 : Int) ∉ (tenKeys.erase 10).2.keys ∧ (tenKeys.erase 100).2 = tenKeys ∧
    ((tenKeys.erase 10).2.erase 10).1 = none :=
  have h := Ref_erase_contract tenKeys 10 (by decide)
  have h100 := Ref_erase_contract tenKeys 100 (by decide)
  ⟨by decide, (h.1 100 (by decide)).1, (h.1 100 (by decide)).2.1,
    (h100.2.1 (by decide)).2, h.2.2.2⟩

/-- C5: an invalid range is a no-op: with `first > last`,
`Ref::update(first, last, delta)` leaves the map (keys and values) unchanged. -/
theorem Ref_update_invalid_range [LinearOrder K] (op : V → V → V) (r : Ref K V)
    (first last : K) (d : V) (h : last < first) : r.update op first last d = r := by
  obtain ⟨m⟩ := r
  have key : (Ref.update op ⟨m⟩ first last d).map = m := by
    induction m with
    | nil => rfl
    | cons p rest ih =>
      rw [Ref.update_map_cons]
      by_cases hk : p.1 < first
      · simp [hk, ih]
      · simp only [hk, if_false]
        apply Ref.updateLoop_of_head_gt
        intro q hq
        simp only [List.head?_cons, Option.mem_def, Option.some.injEq] at hq
        subst hq
        exact lt_of_lt_of_le h (not_lt.mp hk)
  exact congrArg Ref.mk key

/-- Witness of C5: `update(7, 3, 5)` on keys 1..10 changes nothing. -/
theorem Ref_update_invalid_range_witness :
    (3 : Int) < 7 ∧ tenKeys.update (· + ·) 7 3 5 = tenKeys :=
  ⟨by decide, Ref_update_invalid_range (· + ·) tenKeys 7 3 5 (by decide)⟩

/-- C6: an identity delta is a no-op: when `op(v, e) = v` for all `v`,
`Ref::update(first, last, e)` changes no stored value: `value(k)` is the same before and
after for every key `k` (indeed the whole map is the same). -/
theorem Ref_update_identity [LinearOrder K] (op : V → V → V) (e : V)
    (he : ∀ v, op v e = v) (r : Ref K V) (first last : K) :
    (∀ k : K, (r.update op first last e).value k = r.value k) ∧
    r.update op first last e = r := by
  have key : r.update op first last e = r := by
    obtain ⟨m⟩ := r
    simp only [Ref.update, StdMap.lower_bound, Ref.updateLoop_identity op last e he,
      List.takeWhile_append_dropWhile]
  exact ⟨fun k => by rw [key], key⟩

/-- Witness of C6, from `test_insert`: `update(5, 5, 0)` with `op = +`. -/
theorem Ref_update_identity_witness :
    (∀ v : Int, v + 0 = v) ∧
    (∀ k : Int, (tenKeys.update (· + ·) 5 5 0).value k = tenKeys.value k) :=
  ⟨Int.add_zero, (Ref_update_identity (· + ·) 0 Int.add_zero tenKeys 5 5).1⟩

/-- C7: sequential range updates compose: for an associative `op`,
`update(first, last, a)` followed by `update(first, last, b)` yields the same map as the
single `update(first, last, op(a, b))`. -/
theorem Ref_update_compose [LinearOrder K] (op : V → V → V)
    (hassoc : ∀ a b c, op (op a b) c = op a (op b c)) (r : Ref K V) (first last : K)
    (a b : V) :
    (r.update op first last a).update op first last b = r.update op first last (op a b) := by
  obtain ⟨m⟩ := r
  have key : (Ref.update op (Ref.update op ⟨m⟩ first last a) first last b).map
      = (Ref.update op ⟨m⟩ first last (op a b)).map := by
    induction m with
    | nil => rfl
    | cons p rest ih =>
      obtain ⟨k, v⟩ := p
      by_cases hk : k < first
      · have e1 : ∀ d, (Ref.update op ⟨(k, v) :: rest⟩ first last d)
            = ⟨(k, v) :: (Ref.update op ⟨rest⟩ first last d).map⟩ :=
          fun d => Ref.update_cons_lt op (k, v) rest first last d hk
        rw [e1 a, e1 (op a b), Ref.update_map_cons]
        simp only [hk, if_true]
        rw [ih]
      · have e1 : ∀ d, (Ref.update op ⟨(k, v) :: rest⟩ first last d)
            = ⟨Ref.updateLoop op last d ((k, v) :: rest)⟩ :=
          fun d => Ref.update_cons_not_lt op (k, v) rest first last d hk
        rw [e1 a, e1 (op a b), ← Ref.updateLoop_updateLoop op hassoc]
        by_cases hl : k ≤ last
        · simp only [Ref.updateLoop, hl, if_true]
          rw [Ref.update_map_cons]
          simp [hk, Ref.updateLoop, hl]
        · simp only [Ref.updateLoop, hl, if_false]
          rw [Ref.update_map_cons]
          simp [hk, Ref.updateLoop, hl]
  exact congrArg Ref.mk key

/-- Witness of C7, the scenario of the specification: with `op = +`, updating key 5
by `+2`, `-10` and `+0` leaves `value(5)` at its original value minus 8. -/
theorem Ref_update_compose_witness :
    (∀ a b c : Int, a + b + c = a + (b + c)) ∧
    (tenKeys.update (· + ·) 5 5 2).update (· + ·) 5 5 (-10)
      = tenKeys.update (· + ·) 5 5 (2 + -10) ∧
    (((tenKeys.update (· + ·) 5 5 2).update (· + ·) 5 5 (-10)).update (· + ·) 5 5 0).value 5
      = (tenKeys.value 5).map (fun v => v - 8) :=
  have h := Ref_update_compose (· + ·) Int.add_assoc tenKeys 5 5 2 (-10)
  ⟨Int.add_assoc, h, by rw [h]; decide⟩

end RefClaims

/-! ## Lemmas on the verifier -/

section VerifierLemmas

variable {K : Type u} {V : Type v}

theorem check_value_ok [DecidableEq K] (ne : V → V → Bool) (op : V → V → V)
    (ref_it : List (K × V)) (key : K) (value lazy : V) (rest : List (K × V))
    (h : check_value ne op ref_it key value lazy = .ok rest) :
    ∃ v : V, ref_it = (key, v) :: rest ∧ ne v (op value lazy) = false := by
  cases ref_it with
  | nil => simp [check_value] at h
  | cons q tl =>
    obtain ⟨k, v⟩ := q
    simp only [check_value] at h
    by_cases hk : k ≠ key
    · simp [hk] at h
    · by_cases hv : ne v (op value lazy) = true
      · simp [hk, hv] at h
      · have hv' : ne v (op value lazy) = false := by simpa using hv
        simp only [hk, hv', if_false, Bool.false_eq_true, Except.ok.injEq] at h
        rw [not_not] at hk
        exact ⟨v, by rw [hk, h], hv'⟩

theorem check_value_intro [DecidableEq K] (ne : V → V → Bool) (op : V → V → V) (key : K)
    (v value lazy : V) (rest : List (K × V)) (hv : ne v (op value lazy) = false) :
    check_value ne op ((key, v) :: rest) key value lazy = .ok rest := by
  simp [check_value, hv]

theorem check_node_node_inv [DecidableEq K] (ne : V → V → Bool) (op : V → V → V)
    (addr : Nat) (parent : Option Nat) (key : K) (value pend : V) (l r : Node K V)
    (p : Option Nat) (ref_it : List (K × V)) (acc : V) (depth : Int)
    (rest : List (K × V))
    (h : check_node ne op (.node addr parent key value pend l r) p ref_it acc
      = .ok (depth, rest)) :
    parent = p ∧ ∃ (ld rd : Int) (it1 it2 : List (K × V)),
      check_node ne op l (some addr) ref_it (op acc pend) = .ok (ld, it1) ∧
      check_value ne op it1 key value (op acc pend) = .ok it2 ∧
      check_node ne op r (some addr) it2 (op acc pend) = .ok (rd, rest) ∧
      (ld - rd).natAbs ≤ 1 ∧ depth = max ld rd + 1 := by
  simp only [check_node] at h
  by_cases hp : parent ≠ p
  · simp [hp] at h
  · simp only [hp, if_false] at h
    refine ⟨not_not.mp hp, ?_⟩
    cases hl : check_node ne op l (some addr) ref_it (op acc pend) with
    | error e => simp [hl] at h
    | ok resl =>
      obtain ⟨ld, it1⟩ := resl
      simp only [hl] at h
      cases hv : check_value ne op it1 key value (op acc pend) with
      | error e => simp [hv] at h
      | ok it2 =>
        simp only [hv] at h
        cases hr : check_node ne op r (some addr) it2 (op acc pend) with
        | error e => simp [hr] at h
        | ok resr =>
          obtain ⟨rd, it3⟩ := resr
          simp only [hr] at h
          by_cases hb : (CHECK_DEPTH && decide ((ld - rd).natAbs > 1)) = true
          · simp [hb] at h
          · simp only [hb] at h
            simp only [Bool.false_eq_true, if_false, Except.ok.injEq, Prod.mk.injEq] at h
            have hb' : (ld - rd).natAbs ≤ 1 := by
              simp only [CHECK_DEPTH, Bool.true_and, decide_eq_true_eq] at hb
              exact not_lt.mp hb
            exact ⟨ld, rd, it1, it2, rfl, hv, by rw [← h.2]; exact hr, hb', h.1.symm⟩

theorem check_node_node_intro [DecidableEq K] (ne : V → V → Bool) (op : V → V → V)
    (addr : Nat) (parent : Option Nat) (key : K) (value pend : V) (l r : Node K V)
    (p : Option Nat) (ref_it : List (K × V)) (acc : V) (rest : List (K × V))
    (ld rd : Int) (it1 it2 : List (K × V)) (hp : parent = p)
    (hl : check_node ne op l (some addr) ref_it (op acc pend) = .ok (ld, it1))
    (hv : check_value ne op it1 key value (op acc pend) = .ok it2)
    (hr : check_node ne op r (some addr) it2 (op acc pend) = .ok (rd, rest))
    (hb : (ld - rd).natAbs ≤ 1) :
    check_node ne op (.node addr parent key value pend l r) p ref_it acc
      = .ok (max ld rd + 1, rest) := by
  have hb' : ¬ ((ld - rd).natAbs > 1) := not_lt.mpr hb
  simp [check_node, hp, hl, hv, hr, hb']

theorem check_node_ok_height [DecidableEq K] (ne : V → V → Bool) (op : V → V → V)
    (t : Node K V) (p : Option Nat) (ref_it : List (K × V)) (acc : V) (depth : Int)
    (rest : List (K × V)) (h : check_node ne op t p ref_it acc = .ok (depth, rest)) :
    depth = t.height ∧ t.Balanced := by
  induction t generalizing p ref_it acc depth rest with
  | nil =>
    simp only [check_node, Except.ok.injEq, Prod.mk.injEq] at h
    exact ⟨h.1.symm, trivial⟩
  | node addr parent key value pend l r ihl ihr =>
    obtain ⟨_, ld, rd, it1, it2, hl, _, hr, hb, hd⟩ :=
      check_node_node_inv ne op _ _ _ _ _ _ _ _ _ _ _ _ h
    obtain ⟨hld, hbl⟩ := ihl _ _ _ _ _ hl
    obtain ⟨hrd, hbr⟩ := ihr _ _ _ _ _ hr
    subst hld hrd
    refine ⟨hd, hbl, hbr, ?_⟩
    rw [abs_le]
    omega

theorem check_node_ok_parents [DecidableEq K] (ne : V → V → Bool) (op : V → V → V)
    (t : Node K V) (p : Option Nat) (ref_it : List (K × V)) (acc : V) (depth : Int)
    (rest : List (K × V)) (h : check_node ne op t p ref_it acc = .ok (depth, rest)) :
    t.ParentsOk p := by
  induction t generalizing p ref_it acc depth rest with
  | nil => trivial
  | node addr parent key value pend l r ihl ihr =>
    obtain ⟨hp, ld, rd, it1, it2, hl, _, hr, _, _⟩ :=
      check_node_node_inv ne op _ _ _ _ _ _ _ _ _ _ _ _ h
    exact ⟨hp, ihl _ _ _ _ _ hl, ihr _ _ _ _ _ hr⟩

theorem check_node_ok_matched [DecidableEq K] [Inhabited V] (ne : V → V → Bool)
    (op : V → V → V) (t : Node K V) (p : Option Nat) (ref_it : List (K × V))
    (anc : List V) (depth : Int) (rest : List (K × V))
    (h : check_node ne op t p ref_it (anc.foldl op default) = .ok (depth, rest)) :
    ∃ front : List (K × V), ref_it = front ++ rest ∧
      List.Forall₂ (Visit.MatchedBy ne op) front (t.inorder anc) := by
  induction t generalizing p ref_it anc depth rest with
  | nil =>
    simp only [check_node, Except.ok.injEq, Prod.mk.injEq] at h
    exact ⟨[], by simp [h.2], List.Forall₂.nil⟩
  | node addr parent key value pend l r ihl ihr =>
    have hfold : op (anc.foldl op default) pend = (anc ++ [pend]).foldl op default := by
      simp [List.foldl_append]
    obtain ⟨_, ld, rd, it1, it2, hl, hv, hr, _, _⟩ :=
      check_node_node_inv ne op _ _ _ _ _ _ _ _ _ _ _ _ h
    rw [hfold] at hl hr
    obtain ⟨f1, e1, m1⟩ := ihl _ _ _ _ _ hl
    obtain ⟨v, e2, hne⟩ := check_value_ok ne op _ _ _ _ _ hv
    obtain ⟨f2, e3, m2⟩ := ihr _ _ _ _ _ hr
    refine ⟨f1 ++ (key, v) :: f2, ?_, ?_⟩
    · rw [e1, e2, e3]
      simp
    · have hm : Visit.MatchedBy ne op (key, v) ⟨key, value, pend, anc⟩ := by
        refine ⟨rfl, ?_⟩
        rw [hfold] at hne
        exact hne
      exact List.rel_append m1 (List.Forall₂.cons hm m2)

theorem check_node_of_shape [DecidableEq K] [Inhabited V] (ne : V → V → Bool)
    (op : V → V → V) (t : Node K V) (p : Option Nat) (anc : List V)
    (front rest : List (K × V)) (hpar : t.ParentsOk p) (hbal : t.Balanced)
    (hm : List.Forall₂ (Visit.MatchedBy ne op) front (t.inorder anc)) :
    check_node ne op t p (front ++ rest) (anc.foldl op default) = .ok (t.height, rest) := by
  induction t generalizing p anc front rest with
  | nil =>
    simp only [Node.inorder, List.forall₂_nil_right_iff] at hm
    subst hm
    rfl
  | node addr parent key value pend l r ihl ihr =>
    obtain ⟨hp, hpl, hpr⟩ := hpar
    obtain ⟨hbl, hbr, hb⟩ := hbal
    have hfold : op (anc.foldl op default) pend = (anc ++ [pend]).foldl op default := by
      simp [List.foldl_append]
    have hb' : (l.height - r.height).natAbs ≤ 1 := by
      rw [abs_le] at hb
      omega
    simp only [Node.inorder] at hm
    have m1 := List.forall₂_take_append front _ _ hm
    have m2 := List.forall₂_drop_append front _ _ hm
    generalize hf1 : List.take (l.inorder (anc ++ [pend])).length front = f1 at m1
    generalize hf2 : List.drop (l.inorder (anc ++ [pend])).length front = f2' at m2
    have hfront : front = f1 ++ f2' := by
      rw [← hf1, ← hf2, List.take_append_drop]
    cases m2 with
    | cons hhead m3 =>
      rename_i e f2
      obtain ⟨k', v⟩ := e
      obtain ⟨hk, hne⟩ := hhead
      simp only at hk
      subst hk
      have hl := ihl (some addr) (anc ++ [pend]) f1 ((k', v) :: (f2 ++ rest)) hpl hbl m1
      have hv := check_value_intro ne op k' v value ((anc ++ [pend]).foldl op default)
        (f2 ++ rest) hne
      have hr := ihr (some addr) (anc ++ [pend]) f2 rest hpr hbr m3
      rw [← hfold] at hl hv hr
      have hlist : front ++ rest = f1 ++ (k', v) :: (f2 ++ rest) := by
        rw [hfront]; simp
      rw [hlist]
      exact check_node_node_intro ne op addr parent k' value pend l r p _
        (anc.foldl op default) rest l.height r.height _ _ hp hl hv hr hb'

theorem check_value_append [DecidableEq K] (ne : V → V → Bool) (op : V → V → V)
    (ref_it : List (K × V)) (key : K) (value lazy : V) (rest extra : List (K × V))
    (h : check_value ne op ref_it key value lazy = .ok rest) :
    check_value ne op (ref_it ++ extra) key value lazy = .ok (rest ++ extra) := by
  obtain ⟨v, e, hne⟩ := check_value_ok ne op ref_it key value lazy rest h
  rw [e]
  exact check_value_intro ne op key v value lazy (rest ++ extra) hne

theorem check_node_append [DecidableEq K] (ne : V → V → Bool) (op : V → V → V)
    (t : Node K V) (p : Option Nat) (ref_it : List (K × V)) (acc : V) (depth : Int)
    (rest extra : List (K × V)) (h : check_node ne op t p ref_it acc = .ok (depth, rest)) :
    check_node ne op t p (ref_it ++ extra) acc = .ok (depth, rest ++ extra) := by
  induction t generalizing p ref_it acc depth rest with
  | nil =>
    simp only [check_node, Except.ok.injEq, Prod.mk.injEq] at h ⊢
    exact ⟨h.1, by rw [h.2]⟩
  | node addr parent key value pend l r ihl ihr =>
    obtain ⟨hp, ld, rd, it1, it2, hl, hv, hr, hb, hd⟩ :=
      check_node_node_inv ne op _ _ _ _ _ _ _ _ _ _ _ _ h
    rw [hd]
    exact check_node_node_intro ne op _ _ _ _ _ _ _ _ _ _ _ ld rd (it1 ++ extra)
      (it2 ++ extra) hp (ihl _ _ _ _ _ hl) (check_value_append ne op _ _ _ _ _ extra hv)
      (ihr _ _ _ _ _ hr) hb

theorem check_tree_ok_iff [DecidableEq K] [Inhabited V] (ne : V → V → Bool)
    (op : V → V → V) (root : Node K V) (ref : Ref K V) :
    check_tree ne op root ref = .ok () ↔
      ∃ (depth : Int) (rest : List (K × V)),
        check_node ne op root none ref.entries default = .ok (depth, rest) := by
  unfold check_tree
  cases hc : check_node ne op root none ref.entries default with
  | error e => simp
  | ok res => exact ⟨fun _ => ⟨res.1, res.2, rfl⟩, fun _ => rfl⟩

theorem check_tree_error_of_not_ok [DecidableEq K] [Inhabited V] (ne : V → V → Bool)
    (op : V → V → V) (root : Node K V) (ref : Ref K V)
    (h : check_tree ne op root ref ≠ .ok ()) :
    ∃ e, check_tree ne op root ref = .error e := by
  cases hc : check_tree ne op root ref with
  | error e => exact ⟨e, rfl⟩
  | ok u => exact absurd hc h

theorem check_tree_ok_iff_shape [DecidableEq K] [Inhabited V] (ne : V → V → Bool)
    (op : V → V → V) (root : Node K V) (ref : Ref K V) :
    check_tree ne op root ref = .ok () ↔
      root.ParentsOk none ∧ root.Balanced ∧
        ∃ front rest : List (K × V), ref.entries = front ++ rest ∧
          root.MatchedBy ne op front := by
  rw [check_tree_ok_iff]
  constructor
  · rintro ⟨depth, rest, h⟩
    obtain ⟨front, e, hm⟩ := check_node_ok_matched ne op root none ref.entries [] depth rest h
    exact ⟨check_node_ok_parents ne op root none _ _ _ _ h,
      (check_node_ok_height ne op root none _ _ _ _ h).2, front, rest, e, hm⟩
  · rintro ⟨hpar, hbal, front, rest, e, hm⟩
    refine ⟨root.height, rest, ?_⟩
    rw [e]
    exact check_node_of_shape ne op root none [] front rest hpar hbal hm

theorem matched_getElem? [Inhabited V] (ne : V → V → Bool) (op : V → V → V)
    (front : List (K × V)) (visits : List (Visit K V))
    (hm : List.Forall₂ (Visit.MatchedBy ne op) front visits) (i : Nat) (n : Visit K V)
    (hn : visits[i]? = some n) :
    ∃ e : K × V, front[i]? = some e ∧ Visit.MatchedBy ne op e n := by
  induction hm generalizing i with
  | nil => simp at hn
  | cons hhead _ ih =>
    cases i with
    | zero =>
      simp only [List.getElem?_cons_zero, Option.some.injEq] at hn
      subst hn
      exact ⟨_, by simp, hhead⟩
    | succ j =>
      simp only [List.getElem?_cons_succ] at hn ⊢
      exact ih j hn

theorem matched_keys [Inhabited V] (ne : V → V → Bool) (op : V → V → V)
    (front : List (K × V)) (visits : List (Visit K V))
    (hm : List.Forall₂ (Visit.MatchedBy ne op) front visits) :
    front.map Prod.fst = visits.map Visit.key := by
  induction hm with
  | nil => rfl
  | cons hhead _ ih => simp [hhead.1, ih]

end VerifierLemmas

/-! ## The comparison of `Foo` at the values of the example -/

theorem Foo.ne_fooNear_fooOne : Foo.ne fooNear fooOne = false := by
  have h1 : |(1 : Rat) + 1 / 2 ^ 44 - 1| = 1 / 2 ^ 44 := by
    rw [abs_of_pos] <;> norm_num
  have h2 : |(1 : Rat) + 1 / 2 ^ 44| = 1 + 1 / 2 ^ 44 := by
    rw [abs_of_pos]; norm_num
  simp only [Foo.ne, Foo.eq, fooNear, fooOne, h1, h2, abs_one]
  norm_num

theorem Foo.bar_fooOne : Foo.Bar fooOne (Foo.Bar default fooOne) = fooOne := by
  simp [Foo.Bar, fooOne, default]

theorem Foo.fooNear_ne_fooOne : fooNear ≠ fooOne := by
  intro h
  have := congrArg Foo.y h
  norm_num [fooNear, fooOne] at this

/-! ## The claims on the verifier -/

section VerifierClaims

variable {K : Type u} {V : Type v}

/-- C9 as stated fails where the `operator!=` of the value type is not exact: with `Foo`
values, whose comparison has a relative tolerance of `1e-12`, `check_tree` returns on
`fooTree` against `fooRef` although the reference stores `{0, 1 + 2^-44}` for key 1 and
`Op(value(n), L(n))` is `{0, 1}`. -/
theorem check_tree_values_not_exact :
    ¬ ∀ (root : Node Int Foo) (ref : Ref Int Foo),
        check_tree Foo.ne Foo.Bar root ref = .ok () →
        ∀ (i : Nat) (n : Visit Int Foo), (root.inorder [])[i]? = some n →
          ref.entries[i]? = some (n.key,
            Foo.Bar n.value ((n.ancestors ++ [n.pending]).foldl Foo.Bar default)) := by
  intro hall
  have hok : check_tree Foo.ne Foo.Bar fooTree fooRef = .ok () := by
    simp [check_tree, check_node, check_value, fooTree, fooRef, Ref.entries,
      Foo.ne_fooNear_fooOne, Foo.bar_fooOne, CHECK_DEPTH]
  have h := hall fooTree fooRef hok 0 ⟨1, fooOne, fooOne, []⟩ rfl
  simp only [fooRef, Ref.entries, List.getElem?_cons_zero, Option.some.injEq, Prod.mk.injEq,
    List.nil_append, List.foldl_cons, List.foldl_nil, Foo.bar_fooOne, true_and] at h
  exact Foo.fooNear_ne_fooOne h

/-- C9, amended: value check of the verifier: when `check_tree` returns without throwing,
for the `i`-th node `n` of the in-order traversal of the tree the `i`-th reference entry
`(k, v)` has `k = key(n)` and `v != Op(value(n), L(n))` is false under the `operator!=` of
the value type, where `L(n)` is the left fold of `Op` over the pending deltas on the path
root..n inclusive, in root-to-node order, started from `V{}`; so `v = Op(value(n), L(n))`
whenever that operator is exact inequality. The check leaves the harness, tree and
reference, as it is. -/
theorem check_tree_values [DecidableEq K] [Inhabited V] (ne : V → V → Bool)
    (op : V → V → V) (root : Node K V) (ref : Ref K V)
    (h : check_tree ne op root ref = .ok ()) :
    (∀ (i : Nat) (n : Visit K V), (root.inorder [])[i]? = some n →
      ∃ v : V, ref.entries[i]? = some (n.key, v) ∧
        ne v (op n.value ((n.ancestors ++ [n.pending]).foldl op default)) = false) ∧
    ((∀ a b : V, ne a b = false → a = b) →
      ∀ (i : Nat) (n : Visit K V), (root.inorder [])[i]? = some n →
        ref.entries[i]?
          = some (n.key, op n.value ((n.ancestors ++ [n.pending]).foldl op default))) ∧
    (∀ (TI_root : LazyUpdate K V → Node K V) (t : Tester K V),
      TI_root t.stud = root → t.ref = ref → t.check_tree TI_root ne op = .ok t) := by
  obtain ⟨_, _, front, rest, e, hm⟩ := (check_tree_ok_iff_shape ne op root ref).mp h
  have key : ∀ (i : Nat) (n : Visit K V), (root.inorder [])[i]? = some n →
      ∃ v : V, ref.entries[i]? = some (n.key, v) ∧
        ne v (op n.value ((n.ancestors ++ [n.pending]).foldl op default)) = false := by
    intro i n hn
    obtain ⟨q, hq, hk, hv⟩ := matched_getElem? ne op front _ hm i n hn
    have hlt : i < front.length := by
      rcases Nat.lt_or_ge i front.length with hlt | hge
      · exact hlt
      · rw [List.getElem?_eq_none hge] at hq
        cases hq
    refine ⟨q.2, ?_, hv⟩
    rw [e, List.getElem?_append_left hlt, hq, ← hk]
  refine ⟨key, fun hexact i n hn => ?_, fun TI_root t hroot href => ?_⟩
  · obtain ⟨v, hv, hne⟩ := key i n hn
    rw [hv, hexact _ _ hne]
  · simp only [Tester.check_tree, hroot, href, h]

/-- Witness of C9 with `int` values, whose `operator!=` is exact: `check_tree` passes on
`smallTree` against `smallRef`, and the reference entries are the checked effective values
(22 = 10 + (0 + 5 + 7) at key 1). -/
theorem check_tree_values_witness :
    check_tree intNe (· + ·) smallTree smallRef = .ok () ∧
    (∀ a b : Int, intNe a b = false → a = b) ∧
    ∀ (i : Nat) (n : Visit Int Int), (smallTree.inorder [])[i]? = some n →
      smallRef.entries[i]?
        = some (n.key, n.value + (n.ancestors ++ [n.pending]).foldl (· + ·) default) :=
  have hexact : ∀ a b : Int, intNe a b = false → a = b := fun a b hab => by
    simpa [intNe] using hab
  ⟨by rfl, hexact, (check_tree_values intNe (· + ·) smallTree smallRef (by rfl)).2.1 hexact⟩

/-- C10 as stated fails: with list concatenation (associative, identity `[]`, not
commutative) the value checked for the child of `listTree` is `[1, 2]`, while the formula
of invariant 3 gives `[2, 1]`. -/
theorem checkedValue_ne_specEffective :
    ¬ ∀ (combine : List Nat → List Nat → List Nat),
        (∀ a b c, combine (combine a b) c = combine a (combine b c)) →
        (∀ a, combine default a = a ∧ combine a default = a) →
        ∀ (root : Node Nat (List Nat)) (n : Visit Nat (List Nat)), n ∈ root.inorder [] →
          n.checkedValue combine = n.specEffective combine := by
  intro hall
  have h := hall (· ++ ·) List.append_assoc
    (fun a => ⟨List.nil_append a, List.append_nil a⟩) listTree ⟨1, [], [2], [[1]]⟩
    (by simp [listTree, Node.inorder])
  revert h
  decide

/-- C10, amended: the value `Op(value(n), L(n))` checked by the verifier equals
`combine(value(n), combine(Σ, pending(n)))`, with `Σ` the combination of the pending deltas
of the proper ancestors in root-to-n order; for an associative `combine` it equals
`combine(combine(value(n), pending(n)), Σ)` for every node whose pending delta commutes
with `Σ`, in particular whenever `combine` is commutative. -/
theorem checkedValue_eq_specEffective [Inhabited V] (combine : V → V → V)
    (hassoc : ∀ a b c, combine (combine a b) c = combine a (combine b c))
    (root : Node K V) (n : Visit K V) (_hn : n ∈ root.inorder []) :
    n.checkedValue combine = combine n.value (combine (n.ancestorSum combine) n.pending) ∧
    (combine (n.ancestorSum combine) n.pending = combine n.pending (n.ancestorSum combine) →
      n.checkedValue combine = n.specEffective combine) := by
  have h1 : n.checkedValue combine
      = combine n.value (combine (n.ancestorSum combine) n.pending) := by
    simp [Visit.checkedValue, Visit.pathLazy, Visit.ancestorSum, List.foldl_append]
  refine ⟨h1, fun hcomm => ?_⟩
  rw [h1, hcomm, Visit.specEffective, hassoc]

/-- Witness of C10 (amended) on `smallTree` with `op = +`: for the node of key 1,
`10 + (0 + 5 + 7) = (10 + 7) + (0 + 5)`. -/
theorem checkedValue_eq_specEffective_witness :
    (∀ a b c : Int, a + b + c = a + (b + c)) ∧
    (⟨1, 10, 7, [5]⟩ : Visit Int Int) ∈ smallTree.inorder [] ∧
    (⟨1, 10, 7, [5]⟩ : Visit Int Int).checkedValue (· + ·)
      = (⟨1, 10, 7, [5]⟩ : Visit Int Int).specEffective (· + ·) :=
  ⟨Int.add_assoc, by simp [smallTree, Node.inorder],
    (checkedValue_eq_specEffective (· + ·) Int.add_assoc smallTree ⟨1, 10, 7, [5]⟩
      (by simp [smallTree, Node.inorder])).2 (by decide)⟩

end VerifierClaims

/-! ## Entries around a pivot -/

namespace StdMap

variable {K : Type u} {V : Type v}

theorem find?_append [DecidableEq K] (X Z : StdMap K V) (key : K) :
    find? (X ++ Z) key = (find? X key).orElse (fun _ => find? Z key) := by
  induction X with
  | nil => rfl
  | cons p rest ih =>
    obtain ⟨k, v⟩ := p
    by_cases hk : k = key
    · simp [find?, hk]
    · simp [find?, hk, ih]

theorem find?_pivot_lt [LinearOrder K] (X Y : StdMap K V) (k : K) (w : V) (key : K)
    (hk : key < k) (hY : ∀ q ∈ Y, k < q.1) :
    find? (X ++ (k, w) :: Y) key = find? X key := by
  have hne : k ≠ key := (ne_of_lt hk).symm
  have hYn : find? Y key = none :=
    find?_eq_none_of_forall_ne (fun q hq => (ne_of_lt (lt_trans hk (hY q hq))).symm)
  rw [find?_append]
  cases find? X key <;> simp [find?, hne, hYn]

theorem find?_pivot_gt [LinearOrder K] (X Y : StdMap K V) (k : K) (w : V) (key : K)
    (hk : k < key) (hX : ∀ q ∈ X, q.1 < k) :
    find? (X ++ (k, w) :: Y) key = find? Y key := by
  have hne : k ≠ key := ne_of_lt hk
  have hXn : find? X key = none :=
    find?_eq_none_of_forall_ne (fun q hq => ne_of_lt (lt_trans (hX q hq) hk))
  rw [find?_append, hXn]
  simp [find?, hne]

theorem find?_pivot_eq [LinearOrder K] (X Y : StdMap K V) (k : K) (w : V)
    (hX : ∀ q ∈ X, q.1 < k) : find? (X ++ (k, w) :: Y) k = some w := by
  have hXn : find? X k = none :=
    find?_eq_none_of_forall_ne (fun q hq => ne_of_lt (hX q hq))
  rw [find?_append, hXn]
  simp [find?]

theorem emplace_of_forall_lt [LinearOrder K] (X : StdMap K V) (key : K) (value : V)
    (hX : ∀ q ∈ X, q.1 < key) : emplace X key value = X ++ [(key, value)] := by
  induction X with
  | nil => rfl
  | cons p rest ih =>
    obtain ⟨k, v⟩ := p
    have hk : k < key := hX (k, v) (List.mem_cons_self _ _)
    have hnk : ¬ key < k := not_lt.mpr (le_of_lt hk)
    simp [emplace, hk, hnk, ih (fun q hq => hX q (List.mem_cons_of_mem _ hq))]

theorem emplace_pivot_lt [LinearOrder K] (X Y : StdMap K V) (k : K) (w : V) (key : K)
    (value : V) (hk : key < k) :
    emplace (X ++ (k, w) :: Y) key value = emplace X key value ++ (k, w) :: Y := by
  induction X with
  | nil => simp [emplace, hk]
  | cons p rest ih =>
    obtain ⟨k', v'⟩ := p
    by_cases h1 : key < k'
    · simp [emplace, h1]
    · by_cases h2 : k' < key
      · simp [emplace, h1, h2, ih]
      · simp [emplace, h1, h2]

theorem emplace_pivot_gt [LinearOrder K] (X Y : StdMap K V) (k : K) (w : V) (key : K)
    (value : V) (hk : k < key) (hX : ∀ q ∈ X, q.1 < k) :
    emplace (X ++ (k, w) :: Y) key value = X ++ (k, w) :: emplace Y key value := by
  induction X with
  | nil =>
    have hnk : ¬ key < k := not_lt.mpr (le_of_lt hk)
    simp [emplace, hk, hnk]
  | cons p rest ih =>
    obtain ⟨k', v'⟩ := p
    have h2 : k' < key := lt_trans (hX (k', v') (List.mem_cons_self _ _)) hk
    have h1 : ¬ key < k' := not_lt.mpr (le_of_lt h2)
    simp [emplace, h1, h2, ih (fun q hq => hX q (List.mem_cons_of_mem _ hq))]

theorem emplace_pivot_eq [LinearOrder K] (X Y : StdMap K V) (k : K) (w : V) (value : V)
    (hX : ∀ q ∈ X, q.1 < k) :
    emplace (X ++ (k, w) :: Y) k value = X ++ (k, w) :: Y := by
  induction X with
  | nil => simp [emplace]
  | cons p rest ih =>
    obtain ⟨k', v'⟩ := p
    have h2 : k' < k := hX (k', v') (List.mem_cons_self _ _)
    have h1 : ¬ k < k' := not_lt.mpr (le_of_lt h2)
    simp [emplace, h1, h2, ih (fun q hq => hX q (List.mem_cons_of_mem _ hq))]

theorem erase_of_forall_ne [DecidableEq K] (X : StdMap K V) (key : K)
    (hX : ∀ q ∈ X, q.1 ≠ key) : erase X key = X :=
  erase_of_find?_eq_none X key (find?_eq_none_of_forall_ne hX)

theorem erase_append_of_forall_ne [DecidableEq K] (X Z : StdMap K V) (key : K)
    (hX : ∀ q ∈ X, q.1 ≠ key) : erase (X ++ Z) key = X ++ erase Z key := by
  induction X with
  | nil => rfl
  | cons p rest ih =>
    obtain ⟨k, v⟩ := p
    have hk : k ≠ key := hX (k, v) (List.mem_cons_self _ _)
    simp [erase, hk, ih (fun q hq => hX q (List.mem_cons_of_mem _ hq))]

theorem erase_append_of_forall_ne_right [DecidableEq K] (X Z : StdMap K V) (key : K)
    (hZ : ∀ q ∈ Z, q.1 ≠ key) : erase (X ++ Z) key = erase X key ++ Z := by
  induction X with
  | nil => simpa [erase] using erase_of_forall_ne Z key hZ
  | cons p rest ih =>
    obtain ⟨k, v⟩ := p
    by_cases hk : k = key
    · simp [erase, hk]
    · simp [erase, hk, ih]

theorem erase_pivot_lt [LinearOrder K] (X Y : StdMap K V) (k : K) (w : V) (key : K)
    (hk : key < k) (hY : ∀ q ∈ Y, k < q.1) :
    erase (X ++ (k, w) :: Y) key = erase X key ++ (k, w) :: Y := by
  apply erase_append_of_forall_ne_right
  intro q hq
  rcases List.mem_cons.mp hq with rfl | hq
  · exact (ne_of_lt hk).symm
  · exact (ne_of_lt (lt_trans hk (hY q hq))).symm

theorem erase_pivot_gt [LinearOrder K] (X Y : StdMap K V) (k : K) (w : V) (key : K)
    (hk : k < key) (hX : ∀ q ∈ X, q.1 < k) :
    erase (X ++ (k, w) :: Y) key = X ++ (k, w) :: erase Y key := by
  rw [erase_append_of_forall_ne X _ key (fun q hq => ne_of_lt (lt_trans (hX q hq) hk))]
  simp [erase, ne_of_lt hk]

theorem erase_pivot_eq [LinearOrder K] (X Y : StdMap K V) (k : K) (w : V)
    (hX : ∀ q ∈ X, q.1 < k) : erase (X ++ (k, w) :: Y) k = X ++ Y := by
  rw [erase_append_of_forall_ne X _ k (fun q hq => ne_of_lt (hX q hq))]
  simp [erase]

theorem ordered_emplace [LinearOrder K] (m : StdMap K V) (key : K) (value : V)
    (h : Ordered m) : Ordered (emplace m key value) ∧
      ∀ q ∈ emplace m key value, q.1 = key ∨ q ∈ m := by
  induction m with
  | nil => simp [emplace, Ordered]
  | cons p rest ih =>
    obtain ⟨k, v⟩ := p
    have h' := h
    rw [ordered_cons] at h'
    by_cases h1 : key < k
    · simp only [emplace, h1, if_true]
      refine ⟨?_, ?_⟩
      · rw [ordered_cons]
        refine ⟨fun q hq => ?_, h⟩
        rcases List.mem_cons.mp hq with rfl | hq
        · exact h1
        · exact lt_trans h1 (h'.1 q hq)
      · intro q hq
        rcases List.mem_cons.mp hq with rfl | hq
        · exact Or.inl rfl
        · exact Or.inr hq
    · by_cases h2 : k < key
      · simp only [emplace, h1, h2, if_true, if_false]
        obtain ⟨ih1, ih2⟩ := ih h'.2
        refine ⟨?_, ?_⟩
        · rw [ordered_cons]
          refine ⟨fun q hq => ?_, ih1⟩
          rcases ih2 q hq with hq | hq
          · rw [hq]; exact h2
          · exact h'.1 q hq
        · intro q hq
          rcases List.mem_cons.mp hq with rfl | hq
          · exact Or.inr (List.mem_cons_self _ _)
          · rcases ih2 q hq with hq | hq
            · exact Or.inl hq
            · exact Or.inr (List.mem_cons_of_mem _ hq)
      · simp only [emplace, h1, h2, if_false]
        exact ⟨h, fun q hq => Or.inr hq⟩

theorem erase_sublist [DecidableEq K] (m : StdMap K V) (key : K) :
    List.Sublist (erase m key) m := by
  induction m with
  | nil => exact List.Sublist.refl _
  | cons p rest ih =>
    obtain ⟨k, v⟩ := p
    by_cases hk : k = key
    · simp [erase, hk]
    · simp only [erase, hk, if_false]
      exact ih.cons₂ _

theorem ordered_erase [LinearOrder K] (m : StdMap K V) (key : K) (h : Ordered m) :
    Ordered (erase m key) :=
  List.Pairwise.sublist ((erase_sublist m key).map Prod.fst) h

end StdMap

/-! ## Effective entries of the modelled core -/

namespace LNode

variable {K : Type u} {V : Type v}

theorem keys_entries (op : V → V → V) (d : V) (t : LNode K V) :
    (entries op d t).map Prod.fst = t.keys := by
  induction t generalizing d with
  | nil => rfl
  | node k v p h l r ihl ihr => simp [entries, keys, ihl, ihr]

theorem mem_keys_of_mem_entries (op : V → V → V) (d : V) (t : LNode K V) (q : K × V)
    (hq : q ∈ entries op d t) : q.1 ∈ t.keys := by
  rw [← keys_entries op d t]
  exact List.mem_map_of_mem _ hq

theorem ordered_entries_iff [LT K] (op : V → V → V) (d : V) (t : LNode K V) :
    StdMap.Ordered (entries op d t) ↔ t.Bst := by
  unfold StdMap.Ordered Bst
  rw [keys_entries]

theorem bst_node [LT K] (k : K) (v p : V) (h : Int) (l r : LNode K V)
    (hb : (node k v p h l r).Bst) :
    l.Bst ∧ r.Bst ∧ (∀ x ∈ l.keys, x < k) ∧ (∀ x ∈ r.keys, k < x) := by
  unfold Bst at hb ⊢
  simp only [keys, List.pairwise_append, List.pairwise_cons, List.mem_cons] at hb
  exact ⟨hb.1, hb.2.1.2, fun x hx => hb.2.2 x hx k (Or.inl rfl), hb.2.1.1⟩

theorem entries_comp [Inhabited V] (op : V → V → V) (hop : Lawful op) (e d : V)
    (t : LNode K V) :
    entries op (op e d) t = (entries op e t).map (fun q => (q.1, op q.2 d)) := by
  induction t generalizing e with
  | nil => rfl
  | node k v p h l r ihl ihr =>
    simp only [entries, List.map_append, List.map_cons, ← hop.assoc, ihl, ihr]

theorem entries_default_comp [Inhabited V] (op : V → V → V) (hop : Lawful op) (d : V)
    (t : LNode K V) : entries op (op default d) t = entries op d t := by
  cases t with
  | nil => rfl
  | node k v p h l r => simp only [entries, ← hop.assoc, hop.right_id]

theorem entries_recv [Inhabited V] (op : V → V → V) (hop : Lawful op) (d e : V)
    (t : LNode K V) : entries op d (recv op e t) = entries op (op e d) t := by
  cases t with
  | nil => rfl
  | node k v p h l r => simp only [recv, entries, hop.assoc]

theorem entries_mk [Inhabited V] (op : V → V → V) (hop : Lawful op) (d : V)
    (l : LNode K V) (k : K) (v : V) (r : LNode K V) :
    entries op d (mk l k v r) = entries op d l ++ (k, op v d) :: entries op d r := by
  have hv : op v (op default d) = op v d := by rw [← hop.assoc, hop.right_id]
  simp only [mk, entries, entries_default_comp op hop, hv]

theorem entries_push_down [Inhabited V] (op : V → V → V) (hop : Lawful op) (d : V)
    (t : LNode K V) : entries op d (push_down op t) = entries op d t := by
  cases t with
  | nil => rfl
  | node k v p h l r =>
    have hv : op (op v p) (op default d) = op v (op p d) := by
      rw [← hop.assoc, hop.right_id, hop.assoc]
    simp only [push_down, entries, entries_default_comp op hop, entries_recv op hop, hv]

theorem entries_rotate_right [Inhabited V] (op : V → V → V) (hop : Lawful op) (d : V)
    (t : LNode K V) : entries op d (rotate_right op t) = entries op d t := by
  cases t with
  | nil => rfl
  | node k v p h l r =>
    cases l with
    | nil => rfl
    | node lk lv lp lh ll lr =>
      have hrot : rotate_right op (node k v p h (node lk lv lp lh ll lr) r)
          = mk (recv op (op lp p) ll) lk (op lv (op lp p))
              (mk (recv op (op lp p) lr) k (op v p) (recv op p r)) := rfl
      have hd : ∀ a b : V, op a (op default b) = op a b := fun a b => by
        rw [← hop.assoc, hop.right_id]
      rw [hrot]
      simp only [entries_mk op hop, entries_recv op hop, entries, hop.assoc, hd,
        List.append_assoc, List.cons_append]

theorem entries_rotate_left [Inhabited V] (op : V → V → V) (hop : Lawful op) (d : V)
    (t : LNode K V) : entries op d (rotate_left op t) = entries op d t := by
  cases t with
  | nil => rfl
  | node k v p h l r =>
    cases r with
    | nil => rfl
    | node rk rv rp rh rl rr =>
      have hrot : rotate_left op (node k v p h l (node rk rv rp rh rl rr))
          = mk (mk (recv op p l) k (op v p) (recv op (op rp p) rl)) rk (op rv (op rp p))
              (recv op (op rp p) rr) := rfl
      have hd : ∀ a b : V, op a (op default b) = op a b := fun a b => by
        rw [← hop.assoc, hop.right_id]
      rw [hrot]
      simp only [entries_mk op hop, entries_recv op hop, entries, hop.assoc, hd,
        List.append_assoc, List.cons_append]

theorem entries_balance [Inhabited V] (op : V → V → V) (hop : Lawful op) (d : V)
    (t : LNode K V) : entries op d (balance op t) = entries op d t := by
  cases t with
  | nil => rfl
  | node k v p h l r =>
    simp only [balance]
    split_ifs
    · rw [entries_rotate_right op hop]
      simp only [entries, entries_rotate_left op hop]
    · rw [entries_rotate_right op hop]
      rfl
    · rw [entries_rotate_left op hop]
      simp only [entries, entries_rotate_right op hop]
    · rw [entries_rotate_left op hop]
      rfl
    · rfl

end LNode

namespace LNode

variable {K : Type u} {V : Type v}

theorem lt_of_mem_entries_left [LT K] (op : V → V → V) (d : V) (k : K) (l : LNode K V)
    (hl : ∀ x ∈ l.keys, x < k) : ∀ q ∈ entries op d l, q.1 < k :=
  fun q hq => hl q.1 (mem_keys_of_mem_entries op d l q hq)

theorem gt_of_mem_entries_right [LT K] (op : V → V → V) (d : V) (k : K) (r : LNode K V)
    (hr : ∀ x ∈ r.keys, k < x) : ∀ q ∈ entries op d r, k < q.1 :=
  fun q hq => hr q.1 (mem_keys_of_mem_entries op d r q hq)

theorem contains_eq_lookup [LinearOrder K] (op : V → V → V) (key : K) (t : LNode K V) :
    t.contains key = (t.lookup op key).isSome := by
  induction t with
  | nil => rfl
  | node k v p h l r ihl ihr =>
    by_cases h1 : key < k
    · simp [contains, lookup, h1, ihl]
    · by_cases h2 : k < key
      · simp [contains, lookup, h1, h2, ihr]
      · simp [contains, lookup, h1, h2]

theorem lookup_entries [LinearOrder K] [Inhabited V] (op : V → V → V) (hop : Lawful op)
    (key : K) (d : V) (t : LNode K V) (hb : t.Bst) :
    StdMap.find? (entries op d t) key = (t.lookup op key).map (fun x => op x d) := by
  induction t generalizing d with
  | nil => rfl
  | node k v p h l r ihl ihr =>
    obtain ⟨hbl, hbr, hl, hr⟩ := bst_node k v p h l r hb
    have hX := lt_of_mem_entries_left op (op p d) k l hl
    have hY := gt_of_mem_entries_right op (op p d) k r hr
    simp only [entries, lookup]
    by_cases h1 : key < k
    · rw [StdMap.find?_pivot_lt _ _ _ _ _ h1 hY, ihl _ hbl]
      simp [h1, Option.map_map, Function.comp_def, hop.assoc]
    · by_cases h2 : k < key
      · rw [StdMap.find?_pivot_gt _ _ _ _ _ h2 hX, ihr _ hbr]
        simp [h1, h2, Option.map_map, Function.comp_def, hop.assoc]
      · have hk : key = k := le_antisymm (not_lt.mp h2) (not_lt.mp h1)
        subst hk
        rw [StdMap.find?_pivot_eq _ _ _ _ hX]
        simp [hop.assoc]

theorem op_default_absorb [Inhabited V] (op : V → V → V) (hop : Lawful op) (a b : V) :
    op a (op default b) = op a b := by
  rw [← hop.assoc, hop.right_id]

theorem entries_ins [LinearOrder K] [Inhabited V] (op : V → V → V) (hop : Lawful op)
    (key : K) (value : V) (owed d : V) (t : LNode K V) (hb : t.Bst) :
    entries op d (ins op key value owed t)
      = StdMap.emplace (entries op (op owed d) t) key (op value d) := by
  induction t generalizing owed d with
  | nil => simp [ins, entries, StdMap.emplace, mk, op_default_absorb op hop]
  | node k v p h l r ihl ihr =>
    obtain ⟨hbl, hbr, hl, hr⟩ := bst_node k v p h l r hb
    have hX := lt_of_mem_entries_left op (op p (op owed d)) k l hl
    simp only [entries, ins]
    by_cases h1 : key < k
    · simp only [h1, if_true]
      rw [entries_balance op hop, entries_mk op hop, ihl _ _ hbl, entries_recv op hop,
        StdMap.emplace_pivot_lt _ _ _ _ _ _ h1]
      simp only [hop.assoc]
    · by_cases h2 : k < key
      · simp only [h1, h2, if_true, if_false]
        rw [entries_balance op hop, entries_mk op hop, ihr _ _ hbr, entries_recv op hop,
          StdMap.emplace_pivot_gt _ _ _ _ _ _ h2 hX]
        simp only [hop.assoc]
      · have hk : key = k := le_antisymm (not_lt.mp h2) (not_lt.mp h1)
        subst hk
        simp only [h1, if_false]
        rw [entries_mk op hop, entries_recv op hop, entries_recv op hop,
          StdMap.emplace_pivot_eq _ _ _ _ _ hX]
        simp only [hop.assoc]

theorem popMin_eq_none [Inhabited V] (op : V → V → V) (owed : V) (t : LNode K V)
    (h : popMin op owed t = none) : t = nil := by
  cases t with
  | nil => rfl
  | node k v p ht l r =>
    simp only [popMin] at h
    cases hp : popMin op (op p owed) l with
    | none => simp [hp] at h
    | some res => obtain ⟨sk, sv, l'⟩ := res; simp [hp] at h

theorem entries_popMin [Inhabited V] (op : V → V → V) (hop : Lawful op) (owed d : V)
    (t : LNode K V) (sk : K) (sv : V) (t' : LNode K V)
    (h : popMin op owed t = some (sk, sv, t')) :
    entries op (op owed d) t = (sk, op sv d) :: entries op d t' := by
  induction t generalizing owed d sk sv t' with
  | nil => simp [popMin] at h
  | node k v p ht l r ihl _ =>
    simp only [popMin] at h
    simp only [entries]
    cases hp : popMin op (op p owed) l with
    | none =>
      simp only [hp, Option.some.injEq, Prod.mk.injEq] at h
      obtain ⟨rfl, rfl, rfl⟩ := h
      rw [popMin_eq_none op _ l hp, entries_recv op hop]
      simp only [entries, List.nil_append, hop.assoc]
    | some res =>
      obtain ⟨sk', sv', l'⟩ := res
      simp only [hp, Option.some.injEq, Prod.mk.injEq] at h
      obtain ⟨rfl, rfl, rfl⟩ := h
      have hl := ihl (op p owed) d _ _ _ hp
      rw [hop.assoc] at hl
      rw [hl, entries_balance op hop, entries_mk op hop, entries_recv op hop]
      simp only [hop.assoc, List.cons_append]

theorem entries_del [LinearOrder K] [Inhabited V] (op : V → V → V) (hop : Lawful op)
    (key : K) (owed d : V) (t : LNode K V) (hb : t.Bst) :
    entries op d (del op key owed t) = StdMap.erase (entries op (op owed d) t) key := by
  induction t generalizing owed d with
  | nil => rfl
  | node k v p h l r ihl ihr =>
    obtain ⟨hbl, hbr, hl, hr⟩ := bst_node k v p h l r hb
    have hX := lt_of_mem_entries_left op (op p (op owed d)) k l hl
    have hY := gt_of_mem_entries_right op (op p (op owed d)) k r hr
    simp only [entries, del]
    by_cases h1 : key < k
    · simp only [h1, if_true]
      rw [entries_balance op hop, entries_mk op hop, ihl _ _ hbl, entries_recv op hop,
        StdMap.erase_pivot_lt _ _ _ _ _ h1 hY]
      simp only [hop.assoc]
    · by_cases h2 : k < key
      · simp only [h1, h2, if_true, if_false]
        rw [entries_balance op hop, entries_mk op hop, ihr _ _ hbr, entries_recv op hop,
          StdMap.erase_pivot_gt _ _ _ _ _ h2 hX]
        simp only [hop.assoc]
      · have hk : key = k := le_antisymm (not_lt.mp h2) (not_lt.mp h1)
        subst hk
        simp only [h1, if_false]
        rw [StdMap.erase_pivot_eq _ _ _ _ hX]
        cases l with
        | nil => simp [entries_recv op hop, entries, hop.assoc]
        | node lk lv lp lh ll lr =>
          simp only
          cases hp : popMin op (op p owed) r with
          | none =>
            rw [popMin_eq_none op _ r hp]
            simp [entries_recv op hop, entries, hop.assoc]
          | some res =>
            obtain ⟨sk, sv, r'⟩ := res
            have hr' := entries_popMin op hop _ d r sk sv r' hp
            rw [hop.assoc] at hr'
            simp only
            rw [entries_balance op hop, entries_mk op hop, entries_recv op hop, hr']
            simp only [hop.assoc]

end LNode

namespace LNode

variable {K : Type u} {V : Type v}

theorem entries_joinRight [Inhabited V] (op : V → V → V) (hop : Lawful op) (owed d : V)
    (l : LNode K V) (key : K) (value : V) (r : LNode K V) :
    entries op d (joinRight op owed l key value r)
      = entries op (op owed d) l ++ (key, op value d) :: entries op d r := by
  induction l generalizing owed with
  | nil =>
    show entries op d (mk nil key value r) = _
    rw [entries_mk op hop]
    rfl
  | node k v p h ll lr _ ihr =>
    simp only [joinRight]
    split_ifs
    · rw [entries_balance op hop, entries_mk op hop, entries_mk op hop, entries_recv op hop,
        entries_recv op hop]
      simp only [entries, hop.assoc, List.append_assoc, List.cons_append]
    · rw [entries_balance op hop, entries_mk op hop, ihr, entries_recv op hop]
      simp only [entries, hop.assoc, List.append_assoc, List.cons_append]

theorem entries_joinLeft [Inhabited V] (op : V → V → V) (hop : Lawful op) (owed d : V)
    (l : LNode K V) (key : K) (value : V) (r : LNode K V) :
    entries op d (joinLeft op owed l key value r)
      = entries op d l ++ (key, op value d) :: entries op (op owed d) r := by
  induction r generalizing owed with
  | nil =>
    have hj : joinLeft op owed l key value nil = mk l key value nil := by
      cases l <;> rfl
    rw [hj, entries_mk op hop]
    rfl
  | node k v p h rl rr ihl _ =>
    simp only [joinLeft]
    split_ifs
    · rw [entries_balance op hop, entries_mk op hop, entries_mk op hop, entries_recv op hop,
        entries_recv op hop]
      simp only [entries, hop.assoc, List.append_assoc, List.cons_append]
    · rw [entries_balance op hop, entries_mk op hop, ihl, entries_recv op hop]
      simp only [entries, hop.assoc, List.append_assoc, List.cons_append]

theorem entries_join3 [Inhabited V] (op : V → V → V) (hop : Lawful op) (d : V)
    (l : LNode K V) (key : K) (value : V) (r : LNode K V) :
    entries op d (join3 op l key value r)
      = entries op d l ++ (key, op value d) :: entries op d r := by
  simp only [join3]
  split_ifs
  · rw [entries_joinRight op hop, entries_default_comp op hop]
  · rw [entries_joinLeft op hop, entries_default_comp op hop]
  · rw [entries_mk op hop]

theorem entries_join2 [Inhabited V] (op : V → V → V) (hop : Lawful op) (d : V)
    (l r : LNode K V) :
    entries op d (join2 op l r) = entries op d l ++ entries op d r := by
  simp only [join2]
  cases hp : popMin op default r with
  | none =>
    rw [popMin_eq_none op _ r hp]
    simp [entries]
  | some res =>
    obtain ⟨sk, sv, r'⟩ := res
    have hr := entries_popMin op hop default d r sk sv r' hp
    rw [entries_default_comp op hop] at hr
    simp only
    rw [entries_join3 op hop, hr]

theorem entries_split [LinearOrder K] [Inhabited V] (op : V → V → V) (hop : Lawful op)
    (below : K → Bool) (hmono : ∀ a b : K, a < b → below b = true → below a = true)
    (owed d : V) (t : LNode K V) (hb : t.Bst) :
    entries op d (split op below owed t).1 ++ entries op d (split op below owed t).2
        = entries op (op owed d) t ∧
      (∀ q ∈ entries op d (split op below owed t).1, below q.1 = true) ∧
      (∀ q ∈ entries op d (split op below owed t).2, below q.1 = false) := by
  induction t generalizing owed d with
  | nil => simp [split, entries]
  | node k v p h l r ihl ihr =>
    obtain ⟨hbl, hbr, hl, hr⟩ := bst_node k v p h l r hb
    have hX := lt_of_mem_entries_left op (op (op p owed) d) k l hl
    have hY := gt_of_mem_entries_right op (op (op p owed) d) k r hr
    by_cases hk : below k = true
    · obtain ⟨ih1, ih2, ih3⟩ := ihr (op p owed) d hbr
      simp only [split, hk, if_true]
      rw [entries_join3 op hop, entries_recv op hop]
      refine ⟨?_, ?_, ih3⟩
      · rw [List.append_assoc, List.cons_append, ih1]
        simp only [entries, hop.assoc]
      · intro q hq
        rcases List.mem_append.mp hq with hq | hq
        · exact hmono _ _ (hX q hq) hk
        · rcases List.mem_cons.mp hq with rfl | hq
          · exact hk
          · exact ih2 q hq
    · obtain ⟨ih1, ih2, ih3⟩ := ihl (op p owed) d hbl
      have hk' : below k = false := by simpa using hk
      simp only [split, hk', Bool.false_eq_true, if_false]
      rw [entries_join3 op hop, entries_recv op hop]
      refine ⟨?_, ih2, ?_⟩
      · rw [← List.append_assoc, ih1]
        simp only [entries, hop.assoc]
      · intro q hq
        rcases List.mem_append.mp hq with hq | hq
        · exact ih3 q hq
        · rcases List.mem_cons.mp hq with rfl | hq
          · exact hk'
          · cases hb' : below q.1 with
            | false => rfl
            | true => exact absurd (hmono _ _ (hY q hq) hb') hk

end LNode

/-! ## The core simulates the oracle -/

section Simulation

variable {K : Type u} {V : Type v}

theorem LNode.lookup_eq_find? [LinearOrder K] [Inhabited V] (op : V → V → V)
    (hop : LNode.Lawful op) (key : K) (t : LNode K V) (hb : t.Bst) :
    t.lookup op key = StdMap.find? (LNode.entries op default t) key := by
  rw [LNode.lookup_entries op hop key default t hb]
  cases t.lookup op key <;> simp [hop.right_id]

theorem LazyUpdate.entries_update [LinearOrder K] [Inhabited V] (op : V → V → V)
    (hop : LNode.Lawful op) (t : LazyUpdate K V) (first last : K) (d : V)
    (hb : t.root.Bst) :
    LNode.entries op default (t.update op first last d).root
      = (LNode.entries op default t.root).map
          (fun q => (q.1, Ref.updated op first last d q.1 q.2)) := by
  by_cases hfl : last < first
  · have hid : ∀ q ∈ LNode.entries op default t.root,
        (q.1, Ref.updated op first last d q.1 q.2) = q := by
      intro q _
      have : ¬ (first ≤ q.1 ∧ q.1 ≤ last) := fun h => absurd (le_trans h.1 h.2) (not_le.mpr hfl)
      simp [Ref.updated, this]
    simp only [LazyUpdate.update, hfl, if_true]
    conv_lhs => rw [← List.map_id (LNode.entries op default t.root)]
    exact List.map_congr_left (fun q hq => by simpa using (hid q hq).symm)
  · have hm1 : ∀ a b : K, a < b → decide (b < first) = true → decide (a < first) = true := by
      intro a b hab hb'
      simp only [decide_eq_true_eq] at hb' ⊢
      exact lt_trans hab hb'
    have hm2 : ∀ a b : K, a < b → decide (b ≤ last) = true → decide (a ≤ last) = true := by
      intro a b hab hb'
      simp only [decide_eq_true_eq] at hb' ⊢
      exact le_trans (le_of_lt hab) hb'
    obtain ⟨e1, a1, b1⟩ := LNode.entries_split op hop (fun k => decide (k < first)) hm1
      default default t.root hb
    rw [LNode.entries_default_comp op hop] at e1
    have hb2 : (LNode.split op (fun k => decide (k < first)) default t.root).2.Bst := by
      rw [← LNode.ordered_entries_iff op default]
      have hord : StdMap.Ordered (LNode.entries op default t.root) :=
        (LNode.ordered_entries_iff op default t.root).mpr hb
      rw [← e1] at hord
      unfold StdMap.Ordered at hord ⊢
      rw [List.map_append] at hord
      exact (List.pairwise_append.mp hord).2.1
    obtain ⟨e2, a2, b2⟩ := LNode.entries_split op hop (fun k => decide (k ≤ last)) hm2
      default default _ hb2
    rw [LNode.entries_default_comp op hop] at e2
    have hB : ∀ B : LNode K V, LNode.entries op (op d default) B
        = (LNode.entries op default B).map (fun q => (q.1, op q.2 d)) := by
      intro B
      rw [hop.right_id, ← LNode.entries_default_comp op hop d,
        LNode.entries_comp op hop default d]
    simp only [LazyUpdate.update, hfl, if_false]
    rw [LNode.entries_join2 op hop, LNode.entries_join2 op hop, LNode.entries_recv op hop,
      ← e1, ← e2, hB]
    have hge : ∀ q, q ∈ LNode.entries op default
        (LNode.split op (fun k => decide (k < first)) default t.root).2 → first ≤ q.1 := by
      intro q hq
      have := b1 q hq
      simpa using this
    have map_self : ∀ (f : K × V → K × V) (L : List (K × V)), (∀ q ∈ L, f q = q) →
        L.map f = L := by
      intro f L hL
      conv_rhs => rw [← List.map_id L]
      exact List.map_congr_left (fun q hq => by simpa using hL q hq)
    have hA := map_self (fun q => (q.1, Ref.updated op first last d q.1 q.2)) _
      (fun q hq => by
        have hlt : q.1 < first := by simpa using a1 q hq
        have : ¬ (first ≤ q.1 ∧ q.1 ≤ last) := fun h => absurd h.1 (not_le.mpr hlt)
        simp [Ref.updated, this])
    have hC := map_self (fun q => (q.1, Ref.updated op first last d q.1 q.2)) _
      (fun q hq => by
        have hgt : ¬ q.1 ≤ last := by simpa using b2 q hq
        have : ¬ (first ≤ q.1 ∧ q.1 ≤ last) := fun h => hgt h.2
        simp [Ref.updated, this])
    have hBm : (LNode.entries op default (LNode.split op (fun k => decide (k ≤ last)) default
        (LNode.split op (fun k => decide (k < first)) default t.root).2).1).map
          (fun q => (q.1, Ref.updated op first last d q.1 q.2))
        = (LNode.entries op default (LNode.split op (fun k => decide (k ≤ last)) default
        (LNode.split op (fun k => decide (k < first)) default t.root).2).1).map
          (fun q => (q.1, op q.2 d)) := by
      apply List.map_congr_left
      intro q hq
      have h1 : first ≤ q.1 := hge q (by rw [← e2]; exact List.mem_append_left _ hq)
      have h2 : q.1 ≤ last := by simpa using a2 q hq
      simp [Ref.updated, h1, h2]
    rw [List.map_append, List.map_append, hA, hBm, hC, List.append_assoc]

theorem call_simulation [LinearOrder K] [Inhabited V] (op : V → V → V)
    (hop : LNode.Lawful op) (t : LazyUpdate K V) (r : Ref K V)
    (hent : LNode.entries op default t.root = r.map) (hord : StdMap.Ordered r.map)
    (c : Call K V) :
    (t.call op c).1 = (r.call op c).1 ∧
      LNode.entries op default (t.call op c).2.root = (r.call op c).2.map ∧
      StdMap.Ordered (r.call op c).2.map := by
  have hb : t.root.Bst := by
    rw [← LNode.ordered_entries_iff op default, hent]; exact hord
  have hlook : ∀ key, t.root.lookup op key = StdMap.find? r.map key := by
    intro key
    rw [LNode.lookup_eq_find? op hop key t.root hb, hent]
  cases c with
  | insert key value =>
    have hc : t.root.contains key = StdMap.contains r.map key := by
      rw [LNode.contains_eq_lookup op, hlook]; rfl
    simp only [LazyUpdate.call, Ref.call, LazyUpdate.insert, Ref.insert, hc]
    by_cases hcon : StdMap.contains r.map key = true
    · simp [hcon, hent, hord]
    · simp only [hcon, Bool.false_eq_true, if_false, true_and]
      refine ⟨?_, (StdMap.ordered_emplace r.map key value hord).1⟩
      rw [LNode.entries_ins op hop key value default default t.root hb,
        LNode.entries_default_comp op hop, hent, hop.right_id]
  | erase key =>
    simp only [LazyUpdate.call, Ref.call, LazyUpdate.erase, Ref.erase, Ref.value_eq_find?,
      hlook]
    cases hf : StdMap.find? r.map key with
    | none =>
      simp only [true_and]
      rw [StdMap.erase_of_find?_eq_none r.map key hf]
      exact ⟨hent, hord⟩
    | some w =>
      simp only [true_and]
      refine ⟨?_, StdMap.ordered_erase r.map key hord⟩
      rw [LNode.entries_del op hop key default default t.root hb,
        LNode.entries_default_comp op hop, hent]
  | value key =>
    simp only [LazyUpdate.call, Ref.call, LazyUpdate.value, Ref.value_eq_find?, hlook]
    exact ⟨trivial, hent, hord⟩
  | update first last d =>
    simp only [LazyUpdate.call, Ref.call, true_and]
    refine ⟨?_, ?_⟩
    · rw [LazyUpdate.entries_update op hop t first last d hb, hent,
        Ref.update_map_eq op r first last d hord]
    · unfold StdMap.Ordered
      have := Ref.update_keys op r first last d
      rw [this]
      exact hord

theorem run_simulation [LinearOrder K] [Inhabited V] (op : V → V → V)
    (hop : LNode.Lawful op) (calls : List (Call K V)) (t : LazyUpdate K V) (r : Ref K V)
    (hent : LNode.entries op default t.root = r.map) (hord : StdMap.Ordered r.map) :
    (t.run op calls).1 = (r.run op calls).1 ∧
      LNode.entries op default (t.run op calls).2.root = (r.run op calls).2.map ∧
      StdMap.Ordered (r.run op calls).2.map := by
  induction calls generalizing t r with
  | nil => exact ⟨rfl, hent, hord⟩
  | cons c cs ih =>
    obtain ⟨h1, h2, h3⟩ := call_simulation op hop t r hent hord c
    obtain ⟨i1, i2, i3⟩ := ih _ _ h2 h3
    simp only [LazyUpdate.run, Ref.run]
    exact ⟨by rw [h1, i1], i2, i3⟩

end Simulation

section HarnessLemmas

variable {K : Type u} {V : Type v}

theorem Tester.optNe_self (ne : V → V → Bool) (hne : ∀ a : V, ne a a = false)
    (o : Option V) : Tester.optNe ne o o = false := by
  cases o with
  | none => rfl
  | some a => exact hne a

theorem tester_call_ok [LinearOrder K] [Inhabited V]
    (TI_root : LazyUpdate K V → Node K V) (ne : V → V → Bool)
    (hne : ∀ a : V, ne a a = false) (op : V → V → V) (t : LazyUpdate K V)
    (r : Ref K V) (c : Call K V) (h : (t.call op c).1 = (r.call op c).1) :
    Tester.call TI_root ne op ⟨t, r⟩ false c
      = .ok ⟨(t.call op c).2, (r.call op c).2⟩ := by
  cases c with
  | insert key value =>
    simp only [LazyUpdate.call, Ref.call, Reply.insert.injEq] at h
    simp [Tester.call, Tester.insert, Tester.finish, LazyUpdate.call, Ref.call, h]
  | erase key =>
    simp only [LazyUpdate.call, Ref.call, Reply.erase.injEq] at h
    simp [Tester.call, Tester.erase, Tester.finish, LazyUpdate.call, Ref.call, h,
      Tester.optNe_self ne hne]
  | value key =>
    simp only [LazyUpdate.call, Ref.call, Reply.value.injEq] at h
    simp [Tester.call, Tester.value, Tester.finish, LazyUpdate.call, Ref.call, h,
      Tester.optNe_self ne hne]
  | update first last d =>
    simp [Tester.call, Tester.update, Tester.finish, LazyUpdate.call, Ref.call]

theorem tester_run_ok [LinearOrder K] [Inhabited V]
    (TI_root : LazyUpdate K V → Node K V) (ne : V → V → Bool)
    (hne : ∀ a : V, ne a a = false) (op : V → V → V) (hop : LNode.Lawful op)
    (calls : List (Call K V)) (t : LazyUpdate K V) (r : Ref K V)
    (hent : LNode.entries op default t.root = r.map) (hord : StdMap.Ordered r.map) :
    Tester.run TI_root ne op false ⟨t, r⟩ calls
      = .ok ⟨(t.run op calls).2, (r.run op calls).2⟩ := by
  induction calls generalizing t r with
  | nil => rfl
  | cons c cs ih =>
    obtain ⟨h1, h2, h3⟩ := call_simulation op hop t r hent hord c
    simp only [Tester.run, tester_call_ok TI_root ne hne op t r c h1, LazyUpdate.run, Ref.run]
    exact ih _ _ h2 h3

end HarnessLemmas

/-! ## The claim on the round trip -/

section RoundTrip

variable {K : Type u} {V : Type v}

/-- C8: round-trip equivalence of the core with the oracle, for an associative
operator with identity `V{}`: on every sequence of `insert`/`erase`/`value`/`update` calls
applied to the empty core (modelled from the specification) and to the empty `Ref`, every
insert returns the same boolean, every erase and value the same optional, afterwards the
core's effective value of every key equals `Ref::value` of that key, and so the wrappers
of `Tester` run the whole sequence without throwing a mismatch (whatever `operator!=` the
value type has, as long as no value is unequal to itself). -/
theorem LazyUpdate_round_trip [LinearOrder K] [Inhabited V]
    (op : V → V → V) (hassoc : ∀ a b c : V, op (op a b) c = op a (op b c))
    (hid : ∀ a : V, op a default = a) (calls : List (Call K V)) :
    ((LazyUpdate.empty : LazyUpdate K V).run op calls).1
        = ((Ref.empty : Ref K V).run op calls).1 ∧
      (∀ key : K, ((LazyUpdate.empty : LazyUpdate K V).run op calls).2.value op key
        = ((Ref.empty : Ref K V).run op calls).2.value key) ∧
      ∀ (ne : V → V → Bool) (TI_root : LazyUpdate K V → Node K V),
        (∀ a : V, ne a a = false) →
        Tester.run TI_root ne op false ⟨LazyUpdate.empty, Ref.empty⟩ calls
          = .ok ⟨((LazyUpdate.empty : LazyUpdate K V).run op calls).2,
              ((Ref.empty : Ref K V).run op calls).2⟩ := by
  have hop : LNode.Lawful op := ⟨hassoc, hid⟩
  have hord0 : StdMap.Ordered (Ref.empty : Ref K V).map := by
    simp [Ref.empty, StdMap.Ordered]
  obtain ⟨h1, h2, h3⟩ := run_simulation op hop calls LazyUpdate.empty Ref.empty rfl hord0
  refine ⟨h1, fun key => ?_, fun ne TI_root hne =>
    tester_run_ok TI_root ne hne op hop calls LazyUpdate.empty Ref.empty rfl hord0⟩
  have hb : ((LazyUpdate.empty : LazyUpdate K V).run op calls).2.root.Bst := by
    rw [← LNode.ordered_entries_iff op default, h2]; exact h3
  rw [Ref.value_eq_find?, ← h2]
  exact LNode.lookup_eq_find? op hop key _ hb

/-- Witness of C8 with `op = +` on `sampleCalls`: both sides give the same replies, namely
those listed, and agree on every key afterwards. -/
theorem LazyUpdate_round_trip_witness :
    (∀ a b c : Int, a + b + c = a + (b + c)) ∧ (∀ a : Int, a + default = a) ∧
    ((LazyUpdate.empty : LazyUpdate Int Int).run (· + ·) sampleCalls).1
      = [.insert true, .insert true, .insert true, .insert true, .insert true,
          .insert false, .update, .value (some 35), .value (some 10), .update,
          .erase (some 35), .erase none, .update, .update, .value (some 42), .value none,
          .erase (some 2)] ∧
    ((LazyUpdate.empty : LazyUpdate Int Int).run (· + ·) sampleCalls).1
      = ((Ref.empty : Ref Int Int).run (· + ·) sampleCalls).1 ∧
    ∀ key : Int, ((LazyUpdate.empty : LazyUpdate Int Int).run (· + ·) sampleCalls).2.value
        (· + ·) key = ((Ref.empty : Ref Int Int).run (· + ·) sampleCalls).2.value key :=
  have h := LazyUpdate_round_trip (· + ·) Int.add_assoc Int.add_zero sampleCalls
  ⟨Int.add_assoc, Int.add_zero, by decide, h.1, h.2.1⟩

end RoundTrip

/-! ## The claims on what the verifier detects -/

section DetectionClaims

variable {K : Type u} {V : Type v}

/-- C11: balance violation is detected (`config::CHECK_DEPTH` is `true`): when
`check_node` returns without throwing, its return value is the height of the tree (`-1`
for the empty tree, `0` for a single node, one more than the larger child height
otherwise) and every node satisfies `|height(left) - height(right)| <= 1`; so on a tree
with a node that violates this bound `check_tree` throws `TestFailed`. -/
theorem check_node_detects_imbalance [DecidableEq K] [Inhabited V] (ne : V → V → Bool)
    (op : V → V → V) (root : Node K V) :
    CHECK_DEPTH = true ∧
    (∀ (p : Option Nat) (ref_it : List (K × V)) (acc : V) (depth : Int)
        (rest : List (K × V)),
      check_node ne op root p ref_it acc = .ok (depth, rest) →
        depth = root.height ∧ root.Balanced) ∧
    (¬ root.Balanced → ∀ ref : Ref K V, ∃ e, check_tree ne op root ref = .error e) ∧
    (Node.nil : Node K V).height = -1 ∧
    ∀ (addr : Nat) (parent : Option Nat) (key : K) (value pend : V),
      (Node.node addr parent key value pend .nil .nil).height = 0 := by
  refine ⟨rfl, fun p ref_it acc depth rest h => check_node_ok_height ne op root p ref_it acc
    depth rest h, fun hbal ref => ?_, rfl, fun _ _ _ _ _ => rfl⟩
  apply check_tree_error_of_not_ok
  intro hok
  exact hbal ((check_tree_ok_iff_shape ne op root ref).mp hok).2.1

/-- Witness of C11: on `smallTree` `check_node` returns its height 1; on the right chain
`chainTree`, whose root has children of heights `-1` and `1`, `check_tree` throws. -/
theorem check_node_detects_imbalance_witness :
    check_node intNe (· + ·) smallTree none smallRef.entries 0 = .ok (1, []) ∧
    ((1 : Int) = smallTree.height ∧ smallTree.Balanced) ∧
    ¬ chainTree.Balanced ∧
    (∃ e, check_tree intNe (· + ·) chainTree chainRef = .error e) ∧
    check_tree intNe (· + ·) chainTree chainRef = .error (.notBalanced (-1) 1) :=
  have h := check_node_detects_imbalance intNe (· + ·) smallTree
  have hc := check_node_detects_imbalance intNe (· + ·) chainTree
  have hchain : ¬ chainTree.Balanced := fun hb => absurd hb.2.2 (by decide)
  ⟨by rfl, h.2.1 none smallRef.entries 0 1 [] (by rfl), hchain, hc.2.2.1 hchain chainRef,
    by rfl⟩

/-- C12: order violation is detected: against a reference in strictly ascending key
order, when `check_tree` returns without throwing the in-order keys of the tree are a
prefix of the reference's keys and hence strictly ascending (a search tree with unique
keys); so on a tree whose in-order keys are not strictly ascending `check_tree` throws. -/
theorem check_tree_detects_order [LinearOrder K] [Inhabited V] (ne : V → V → Bool)
    (op : V → V → V) (root : Node K V) (ref : Ref K V) (hord : StdMap.Ordered ref.map) :
    (check_tree ne op root ref = .ok () →
      root.inorderKeys <+: ref.keys ∧ root.inorderKeys.Pairwise (· < ·)) ∧
    (¬ root.inorderKeys.Pairwise (· < ·) → ∃ e, check_tree ne op root ref = .error e) := by
  have key : check_tree ne op root ref = .ok () →
      root.inorderKeys <+: ref.keys ∧ root.inorderKeys.Pairwise (· < ·) := by
    intro hok
    obtain ⟨_, _, front, rest, e, hm⟩ := (check_tree_ok_iff_shape ne op root ref).mp hok
    have hkeys : ref.keys = root.inorderKeys ++ rest.map Prod.fst := by
      unfold Ref.keys Node.inorderKeys
      rw [show ref.map = ref.entries from rfl, e, List.map_append,
        matched_keys ne op front _ hm]
    refine ⟨⟨rest.map Prod.fst, hkeys.symm⟩, ?_⟩
    have hp : ref.keys.Pairwise (· < ·) := hord
    rw [hkeys] at hp
    exact (List.pairwise_append.mp hp).1
  refine ⟨key, fun hnot => ?_⟩
  apply check_tree_error_of_not_ok
  intro hok
  exact hnot (key hok).2

/-- Witness of C12: `smallTree` passes against `smallRef` and its in-order keys 1, 2, 3
ascend; `swappedTree` (in-order keys 3, 2, 1) is rejected with a key mismatch. -/
theorem check_tree_detects_order_witness :
    StdMap.Ordered smallRef.map ∧ check_tree intNe (· + ·) smallTree smallRef = .ok () ∧
    (smallTree.inorderKeys <+: smallRef.keys ∧ smallTree.inorderKeys.Pairwise (· < ·)) ∧
    ¬ swappedTree.inorderKeys.Pairwise (· < ·) ∧
    check_tree intNe (· + ·) swappedTree smallRef = .error .keyMismatch :=
  have h := check_tree_detects_order intNe (· + ·) smallTree smallRef (by decide)
  ⟨by decide, by rfl, h.1 (by rfl), by decide, by rfl⟩

/-- C13: parent mismatch is detected: when `check_tree` returns without throwing, the
parent link of the root is null and the parent link of every child of every node `n` is
`n`; so on a tree with a parent link that differs from the structural parent `check_tree`
throws `TestFailed`. -/
theorem check_tree_detects_parent [DecidableEq K] [Inhabited V] (ne : V → V → Bool)
    (op : V → V → V) (root : Node K V) (ref : Ref K V) :
    (check_tree ne op root ref = .ok () → root.ParentsOk none) ∧
    (¬ root.ParentsOk none → ∃ e, check_tree ne op root ref = .error e) := by
  have key : check_tree ne op root ref = .ok () → root.ParentsOk none :=
    fun hok => ((check_tree_ok_iff_shape ne op root ref).mp hok).1
  refine ⟨key, fun hnot => ?_⟩
  apply check_tree_error_of_not_ok
  intro hok
  exact hnot (key hok)

/-- Witness of C13: `smallTree` passes and its parent links are consistent; `strayTree`,
where the node of key 3 names the node of key 1 as its parent, is rejected with a parent
mismatch. -/
theorem check_tree_detects_parent_witness :
    check_tree intNe (· + ·) smallTree smallRef = .ok () ∧ smallTree.ParentsOk none ∧
    ¬ strayTree.ParentsOk none ∧
    check_tree intNe (· + ·) strayTree smallRef = .error .parentMismatch :=
  have h := check_tree_detects_parent intNe (· + ·) smallTree smallRef
  ⟨by rfl, h.1 (by rfl), fun hp => absurd hp.2.2.1 (by decide), by rfl⟩

/-- C15: `check_tree` does not require the reference to be exhausted: on the empty tree
it returns without throwing for every reference; in general it passes exactly when the
parent links are consistent, the tree is balanced and the reference starts with entries
that match the in-order traversal of the tree (equal keys, values not unequal to the
effective values under the `operator!=` of the value type), whatever entries follow; so a
tree that passes against a reference also passes against that reference followed by any
further entries (such as larger keys). -/
theorem check_tree_ignores_rest [DecidableEq K] [Inhabited V] (ne : V → V → Bool)
    (op : V → V → V) :
    (∀ ref : Ref K V, check_tree ne op (.nil : Node K V) ref = .ok ()) ∧
    (∀ (root : Node K V) (ref : Ref K V), check_tree ne op root ref = .ok () ↔
      root.ParentsOk none ∧ root.Balanced ∧
        ∃ front rest : List (K × V), ref.entries = front ++ rest ∧
          root.MatchedBy ne op front) ∧
    (∀ (root : Node K V) (ref : Ref K V) (extra : List (K × V)),
      check_tree ne op root ref = .ok () →
        check_tree ne op root ⟨ref.map ++ extra⟩ = .ok ()) := by
  refine ⟨fun ref => rfl, fun root ref => check_tree_ok_iff_shape ne op root ref,
    fun root ref extra hok => ?_⟩
  obtain ⟨depth, rest, h⟩ := (check_tree_ok_iff ne op root ref).mp hok
  exact (check_tree_ok_iff ne op root ⟨ref.map ++ extra⟩).mpr
    ⟨depth, rest ++ extra, check_node_append ne op root none ref.entries default depth rest
      extra h⟩

/-- Witness of C15: `smallTree` (keys 1, 2, 3) passes against `smallRef`, hence against
`longRef`, which also has the larger keys 4 and 5; the empty tree passes against the
non-empty `longRef`. -/
theorem check_tree_ignores_rest_witness :
    check_tree intNe (· + ·) smallTree smallRef = .ok () ∧
    check_tree intNe (· + ·) smallTree longRef = .ok () ∧
    check_tree intNe (· + ·) (.nil : Node Int Int) longRef = .ok () :=
  ⟨by rfl,
    (check_tree_ignores_rest intNe (· + ·)).2.2 smallTree smallRef [(4, 40), (5, 50)]
      (by rfl),
    (check_tree_ignores_rest intNe (· + ·)).1 longRef⟩

end DetectionClaims

/-! ## The claims on the oracle as an ordered mapping -/

section OracleClaims

variable {K : Type u} {V : Type v}

theorem Ref.call_ordered [LinearOrder K] (op : V → V → V) (r : Ref K V) (c : Call K V)
    (hord : StdMap.Ordered r.map) : StdMap.Ordered (r.call op c).2.map := by
  cases c with
  | insert key value =>
    simp only [Ref.call, Ref.insert]
    by_cases hc : StdMap.contains r.map key = true
    · simpa [hc] using hord
    · simpa [hc] using (StdMap.ordered_emplace r.map key value hord).1
  | erase key => exact StdMap.ordered_erase r.map key hord
  | value key => exact hord
  | update first last d =>
    show ((r.update op first last d).map.map Prod.fst).Pairwise (· < ·)
    rw [Ref.update_keys op r first last d]
    exact hord

theorem Ref.run_ordered [LinearOrder K] (op : V → V → V) (calls : List (Call K V))
    (r : Ref K V) (hord : StdMap.Ordered r.map) :
    StdMap.Ordered (r.run op calls).2.map := by
  induction calls generalizing r with
  | nil => exact hord
  | cons c cs ih => exact ih _ (Ref.call_ordered op r c hord)

theorem StdMap.erase_emplace [LinearOrder K] (m : StdMap K V) (key : K) (value : V)
    (h : StdMap.find? m key = none) :
    StdMap.erase (StdMap.emplace m key value) key = m := by
  induction m with
  | nil => simp [StdMap.emplace, StdMap.erase]
  | cons p rest ih =>
    obtain ⟨k, v⟩ := p
    have hk : k ≠ key := by
      intro hk; simp [StdMap.find?, hk] at h
    have hrest : StdMap.find? rest key = none := by simpa [StdMap.find?, hk] using h
    by_cases h1 : key < k
    · simp [StdMap.emplace, StdMap.erase, h1]
    · have h2 : k < key := lt_of_le_of_ne (not_lt.mp h1) hk
      simp [StdMap.emplace, StdMap.erase, h1, h2, hk, ih hrest]

/-- C14: the oracle is an ordered mapping with unique keys after every operation:
after every finite sequence of `insert`, `erase`, `value` and `update` calls on the empty
`Ref`, iteration from `begin()` to `end()` yields the stored keys in strictly ascending
order, each exactly once; `value` leaves the oracle as it is and `update` keeps its
keys. -/
theorem Ref_run_ordered_unique [LinearOrder K] (op : V → V → V)
    (calls : List (Call K V)) :
    ((Ref.empty : Ref K V).run op calls).2.keys.Pairwise (· < ·) ∧
    ((Ref.empty : Ref K V).run op calls).2.keys.Nodup ∧
    (∀ (r : Ref K V) (key : K), (r.call op (.value key)).2 = r) ∧
    (∀ (r : Ref K V) (first last : K) (d : V),
      (r.call op (.update first last d)).2.keys = r.keys) := by
  have hord : StdMap.Ordered ((Ref.empty : Ref K V).run op calls).2.map :=
    Ref.run_ordered op calls Ref.empty (by simp [Ref.empty, StdMap.Ordered])
  refine ⟨hord, ?_, fun r key => rfl, fun r first last d => Ref.update_keys op r first last d⟩
  exact List.Pairwise.imp (fun hab => ne_of_lt hab) hord

/-- C16: insert/erase round trip on the oracle: for a key `k` that is not present,
`Ref::insert(k, v)` returns `true`, and the following `Ref::erase(k)` returns `v` and
leaves a map equal to the original one. -/
theorem Ref_insert_erase_round_trip [LinearOrder K] (r : Ref K V) (key : K) (value : V)
    (h : key ∉ r.keys) :
    (r.insert key value).1 = true ∧
    ((r.insert key value).2.erase key).1 = some value ∧
    ((r.insert key value).2.erase key).2 = r := by
  have hnone : StdMap.find? r.map key = none := by
    cases hf : StdMap.find? r.map key with
    | none => rfl
    | some w =>
      exact absurd ((Ref.mem_keys_iff_value r key).mpr
        (by rw [Ref.value_eq_find?, hf]; rfl)) h
  have hc : StdMap.contains r.map key = false := by simp [StdMap.contains, hnone]
  refine ⟨by simp [Ref.insert, hc], ?_, ?_⟩
  · simp only [Ref.insert, hc, Bool.false_eq_true, if_false, Ref.erase, Ref.value_eq_find?]
    exact StdMap.find?_emplace_self r.map key value hnone
  · simp only [Ref.insert, hc, Bool.false_eq_true, if_false, Ref.erase]
    rw [StdMap.erase_emplace r.map key value hnone]

/-- Witness of C16 on keys 1..10: `insert(11, 110)` returns `true`, then `erase(11)`
returns 110 and the map is the original one again. -/
theorem Ref_insert_erase_round_trip_witness :
    (11 : Int) ∉ tenKeys.keys ∧ (tenKeys.insert 11 110).1 = true ∧
    ((tenKeys.insert 11 110).2.erase 11).1 = some 110 ∧
    ((tenKeys.insert 11 110).2.erase 11).2 = tenKeys :=
  ⟨by decide, Ref_insert_erase_round_trip tenKeys 11 110 (by decide)⟩

end OracleClaims

end LazyAVL
